import Mathlib

/-!
# Verification of the macrodb table protocol

Shallow embedding of the insert/update/delete protocol generated by the
`table!` macro family in `src/lib.rs`.  The generated Rust code operates on a
database struct holding, per table, a primary map `PK -> Record` together
with one container per declared index:

  * `unique`  : `Map<FieldValue, PK>`
  * `index`   : `Map<FieldValue, Set<PK>>` (grouping index)
  * `foreign` : reads ANOTHER table's primary map (membership only)
  * `reverse` : reads (and, on delete, prunes) another table's grouping index
  * `primary` : checks the table's own primary map

Records are modelled as tuples of field values (`List V`), with the primary
key designated by a field position `pkf` — exactly the macro's `$pk` field
parameter.  A declaration names its field by position (`fi`), mirroring the
macro's `$prop` field name.  Maps are association lists with `BTreeMap`
semantics (lookup, replacing insert, remove); sets are duplicate-free lists.

Rust `panic!` / `expect` branches of the generated code (internal-defect
assertions) are modelled by a distinguished `panic` outcome; a panic aborts
the process, so the table value paired with it is unobservable.
-/

set_option linter.unusedSectionVars false

namespace MacroDB

universe u v

/-- `BTreeMap::get`: first (unique, in well-formed maps) binding of `k`. -/
def lookupA {α : Type u} {β : Type v} [DecidableEq α] : List (α × β) → α → Option β
  | [], _ => none
  | (k₀, v₀) :: rest, k => if k = k₀ then some v₀ else lookupA rest k

/-- `BTreeMap::insert`: replace the binding of `k` in place, or append it. -/
def insertA {α : Type u} {β : Type v} [DecidableEq α] : List (α × β) → α → β → List (α × β)
  | [], k, v => [(k, v)]
  | (k₀, v₀) :: rest, k, v =>
    if k = k₀ then (k, v) :: rest else (k₀, v₀) :: insertA rest k v

/-- `BTreeMap::remove`: drop every binding of `k` (maps hold at most one). -/
def removeA {α : Type u} {β : Type v} [DecidableEq α] : List (α × β) → α → List (α × β)
  | [], _ => []
  | (k₀, v₀) :: rest, k =>
    if k = k₀ then removeA rest k else (k₀, v₀) :: removeA rest k

/-- A record (a table row) is the tuple of its field values. -/
abbrev Rec (V : Type u) := List V

variable {V : Type u} {E : Type v}

/-- `data.$prop`: the value of field number `i` of record `r`. -/
def fieldv [Inhabited V] (r : Rec V) (i : Nat) : V := r.getD i default

/--
One declared index of a table, holding its static declaration data
(field position `fi`, declared error) together with its backing container,
mirroring the `$itype $name $prop => $err` declarations of the `table!`
macro.  `foreign` carries the key set of the referenced table's primary map;
`reverse` carries the referencing table's grouping index (keyed by this
table's primary keys).  The `constraint` variant carries the caller-supplied
check function of the record (returning `none` for pass or the caller's
error); it is modelled from the spec (see `constraintCheck`).
-/
inductive Index (V : Type u) (E : Type v) where
  | primary (fi : Nat) (err : E)
  | unique (fi : Nat) (err : E) (m : List (V × V))
  | group (fi : Nat) (m : List (V × List V))
  | foreign (fi : Nat) (err : E) (other : List V)
  | reverse (fi : Nat) (err : E) (other : List (V × List V))
  | constraint (check : Rec V → Option E)

/-- The state of one table: its primary store plus its declared indices. -/
structure Table (V : Type u) (E : Type v) where
  store : List (V × Rec V)
  indices : List (Index V E)

/-- Outcome of a generated database method: Rust's `Ok`/`Err`, plus `panic`
for the generated code's internal-defect `panic!`/`expect` branches. -/
inductive Res (E : Type v) (ρ : Type u) where
  | ok (val : ρ)
  | err (e : E)
  | panic
  deriving DecidableEq

section Ops

variable [DecidableEq V] [Inhabited V]

/-- Modelled from the spec: the `constraint` kind's insert-side check is
missing from `src/lib.rs` (only `tests/constraint.rs` declares one); per the
spec it "runs the predicate against the full record" and, when the predicate
rejects, the operation fails with the caller-supplied error. -/
def constraintCheck (check : Rec V → Option E) (r : Rec V) : Option E := check r

/-- Modelled from the spec: the `constraint` kind's update-side check is
missing from `src/lib.rs`.  Per the spec's update rule ("for fields that
changed between `old` and `new`, re-runs the equivalent of `insert_check`
against the *new* value only"), on a changed record the predicate runs
against the full new candidate record. -/
def constraintUpdateCheck (check : Rec V → Option E) (old new : Rec V) : Option E :=
  if old = new then none else check new

/-- One arm of `table_insert_check!`: `foreign` fails when the referenced key
is absent, `unique`/`primary` fail when the field value / key is present,
`index` and `reverse` never fail on insert. -/
def insertCheck1 (store : List (V × Rec V)) (r : Rec V) : Index V E → Option E
  | .primary fi err => if (lookupA store (fieldv r fi)).isSome then some err else none
  | .unique fi err m => if (lookupA m (fieldv r fi)).isSome then some err else none
  | .foreign fi err other => if fieldv r fi ∈ other then none else some err
  | .group _ _ => none
  | .reverse _ _ _ => none
  | .constraint check => constraintCheck check r

/-- Run a per-index check over the declarations in declaration order,
returning the first failure (the generated checks are a sequence of
early-returning `if` statements). -/
def firstErr (f : Index V E → Option E) : List (Index V E) → Option E
  | [] => none
  | ix :: rest =>
    match f ix with
    | some e => some e
    | none => firstErr f rest

/-- `table_insert_check` (the generated `*_insert_check` method). -/
def insertChecks (store : List (V × Rec V)) (r : Rec V) (ixs : List (Index V E)) : Option E :=
  firstErr (insertCheck1 store r) ixs

/-- One arm of `table_insert_index!`: `unique` inserts `field ↦ pk` and
panics if the key was already bound; `index` inserts `pk` into the
(defaulted) set for the field value and panics if it was already a member;
the other kinds do nothing. -/
def insertIndex1 (pk : V) (r : Rec V) : Index V E → Option (Index V E)
  | .unique fi err m =>
    if (lookupA m (fieldv r fi)).isSome then none
    else some (.unique fi err (insertA m (fieldv r fi) pk))
  | .group fi m =>
    let s := (lookupA m (fieldv r fi)).getD []
    if pk ∈ s then none
    else some (.group fi (insertA m (fieldv r fi) (s ++ [pk])))
  | ix => some ix

/-- Apply a per-index mutation to every declared index in declaration order;
`none` propagates a panic. -/
def mapIndices (f : Index V E → Option (Index V E)) :
    List (Index V E) → Option (List (Index V E))
  | [] => some []
  | ix :: rest =>
    match f ix with
    | none => none
    | some ix' =>
      match mapIndices f rest with
      | none => none
      | some rest' => some (ix' :: rest')

/-- `table_insert`: the generated `*_insert` method.  Runs the checks (read
only), then mutates the index containers, then inserts into the primary
store under the record's `$pk` field. -/
def tableInsert (pkf : Nat) (t : Table V E) (r : Rec V) : Table V E × Res E Unit :=
  match insertChecks t.store r t.indices with
  | some e => (t, .err e)
  | none =>
    match mapIndices (insertIndex1 (fieldv r pkf) r) t.indices with
    | none => (t, .panic)
    | some ixs => (⟨insertA t.store (fieldv r pkf) r, ixs⟩, .ok ())

/-- One arm of `table_delete_check!`: only `reverse` can fail — absent entry
passes, an (invariant-violating) empty entry panics, a non-empty entry
yields the declared error. -/
def deleteCheck1 (pk : V) : Index V E → Res E Unit
  | .reverse _ err other =>
    match lookupA other pk with
    | none => .ok ()
    | some s => if s.isEmpty then .panic else .err err
  | _ => .ok ()

/-- The per-index portion of `table_delete_checks`, in declaration order. -/
def deleteChecks (pk : V) : List (Index V E) → Res E Unit
  | [] => .ok ()
  | ix :: rest =>
    match deleteCheck1 pk ix with
    | .ok _ => deleteChecks pk rest
    | .err e => .err e
    | .panic => .panic

/-- One arm of `table_delete_index!`: `unique` removes the field binding
(panicking if it was absent or bound to a different key); `reverse` removes
the entry for `pk` (panicking if it was non-empty); `index` removes `pk`
from the field value's set (panicking if absent) and prunes the set when it
becomes empty. -/
def deleteIndex1 (pk : V) (r : Rec V) : Index V E → Option (Index V E)
  | .unique fi err m =>
    match lookupA m (fieldv r fi) with
    | none => none
    | some k =>
      if k = pk then some (.unique fi err (removeA m (fieldv r fi))) else none
  | .reverse fi err other =>
    match lookupA other pk with
    | some s => if s.isEmpty then some (.reverse fi err (removeA other pk)) else none
    | none => some (.reverse fi err (removeA other pk))
  | .group fi m =>
    match lookupA m (fieldv r fi) with
    | none => none
    | some s =>
      if pk ∈ s then
        let s' := s.erase pk
        if s'.isEmpty then some (.group fi (removeA m (fieldv r fi)))
        else some (.group fi (insertA m (fieldv r fi) s'))
      else none
  | ix => some ix

/-- `table_delete`: the generated `*_delete` method.  `*_delete_check` looks
the row up (failing with the table's `missing` error when absent) and runs
the per-index delete checks; on success the index containers are mutated and
the row is removed from the primary store. -/
def tableDelete (pkf : Nat) (missing : E) (t : Table V E) (id : V) :
    Table V E × Res E (Rec V) :=
  match lookupA t.store id with
  | none => (t, .err missing)
  | some row =>
    match deleteChecks (fieldv row pkf) t.indices with
    | .err e => (t, .err e)
    | .panic => (t, .panic)
    | .ok _ =>
      match mapIndices (deleteIndex1 (fieldv row pkf) row) t.indices with
      | none => (t, .panic)
      | some ixs => (⟨removeA t.store id, ixs⟩, .ok row)

/-- One arm of `table_update_check!`: `unique` and `foreign` re-run their
insert check against the new value only when the indexed field changed;
`primary`/`reverse`/`index` never fail on update; `constraint` is modelled
from the spec (see `constraintUpdateCheck`). -/
def updateCheck1 (old new : Rec V) : Index V E → Option E
  | .unique fi err m =>
    if fieldv old fi = fieldv new fi then none
    else if (lookupA m (fieldv new fi)).isSome then some err else none
  | .foreign fi err other =>
    if fieldv old fi = fieldv new fi then none
    else if fieldv new fi ∈ other then none else some err
  | .constraint check => constraintUpdateCheck check old new
  | _ => none

/-- `table_update_check` (the generated `*_update_check` method). -/
def updateChecks (old new : Rec V) (ixs : List (Index V E)) : Option E :=
  firstErr (updateCheck1 old new) ixs

/-- One arm of `table_update_index!`: when the indexed field changed, run the
delete-index arm for the old value followed by the insert-index arm for the
new value (for `reverse` the insert arm is a no-op); unchanged fields are
untouched. -/
def updateIndex1 (pk : V) (old new : Rec V) : Index V E → Option (Index V E)
  | .unique fi err m =>
    if fieldv old fi = fieldv new fi then some (.unique fi err m)
    else
      match lookupA m (fieldv old fi) with
      | none => none
      | some k =>
        if k = pk then
          let m₁ := removeA m (fieldv old fi)
          if (lookupA m₁ (fieldv new fi)).isSome then none
          else some (.unique fi err (insertA m₁ (fieldv new fi) pk))
        else none
  | .group fi m =>
    if fieldv old fi = fieldv new fi then some (.group fi m)
    else
      match lookupA m (fieldv old fi) with
      | none => none
      | some s =>
        if pk ∈ s then
          let s' := s.erase pk
          let m₁ :=
            if s'.isEmpty then removeA m (fieldv old fi)
            else insertA m (fieldv old fi) s'
          let s₂ := (lookupA m₁ (fieldv new fi)).getD []
          if pk ∈ s₂ then none
          else some (.group fi (insertA m₁ (fieldv new fi) (s₂ ++ [pk])))
        else none
  | .reverse fi err other =>
    if fieldv old fi = fieldv new fi then some (.reverse fi err other)
    else
      match lookupA other pk with
      | some s => if s.isEmpty then some (.reverse fi err (removeA other pk)) else none
      | none => some (.reverse fi err (removeA other pk))
  | ix => some ix

/-- `table_update`: the generated `*_update` method.  Looks up the old row by
the new record's `$pk` field (failing with the `missing` error when absent),
runs the diff-based checks, then mutates the index containers (keyed by the
old row's `$pk` field) and replaces the stored row. -/
def tableUpdate (pkf : Nat) (missing : E) (t : Table V E) (new : Rec V) :
    Table V E × Res E (Rec V) :=
  match lookupA t.store (fieldv new pkf) with
  | none => (t, .err missing)
  | some old =>
    match updateChecks old new t.indices with
    | some e => (t, .err e)
    | none =>
      match mapIndices (updateIndex1 (fieldv old pkf) old new) t.indices with
      | none => (t, .panic)
      | some ixs => (⟨insertA t.store (fieldv new pkf) new, ixs⟩, .ok old)

end Ops

/-- `table_next_id!` for a `u64`-keyed table:
`self.table.keys().max().map(|key| *key + 1).unwrap_or_default()`, with
`u64` increment (wrapping at `2 ^ 64`) and `u64::default() = 0`. -/
def tableNextId (t : Table Nat E) : Nat :=
  match (t.store.map Prod.fst).max? with
  | none => 0
  | some m => (m + 1) % 2 ^ 64

/-! Concrete fixtures, modelling the `Users` table of `src/tests.rs`:
record = `[id, name, email, age]` with names/emails coded as numbers;
declaration order: `primary users id`, `unique user_by_email email`,
`index users_by_age age`, `index users_by_name name`. -/

/-- Error codes of the fixture: 100 = IdExists, 101 = EmailExists,
99 = NotFound. -/
def exIxs : List (Index Nat Nat) :=
  [.primary 0 100, .unique 2 101 [], .group 3 [], .group 1 []]

/-- The empty fixture table. -/
def exEmpty : Table Nat Nat := ⟨[], exIxs⟩

/-- The fixture table after inserting the record `[0, 7, 20, 21]`. -/
def exT1 : Table Nat Nat :=
  ⟨[(0, [0, 7, 20, 21])],
   [.primary 0 100, .unique 2 101 [(20, 0)], .group 3 [(21, [0])],
    .group 1 [(7, [0])]]⟩

/-- The fixture table after inserting `[0, 7, 20, 21]` and `[1, 8, 22, 21]`. -/
def exT2 : Table Nat Nat :=
  ⟨[(0, [0, 7, 20, 21]), (1, [1, 8, 22, 21])],
   [.primary 0 100, .unique 2 101 [(20, 0), (22, 1)], .group 3 [(21, [0, 1])],
    .group 1 [(7, [0]), (8, [1])]]⟩

/-- A two-table fixture: a parent row `1` referenced by child rows `[10]`
through a reverse-dependency index (error 201). -/
def exParent : Table Nat Nat :=
  ⟨[(1, [1, 5])], [.primary 0 200, .reverse 0 201 [(1, [10])]]⟩

/-- The parent fixture after all referencing children are gone. -/
def exParentFree : Table Nat Nat :=
  ⟨[(1, [1, 5])], [.primary 0 200, .reverse 0 201 []]⟩

/-- A fixture with a caller-supplied constraint (error 300 when field 1 is
zero), modelling `tests/constraint.rs`. -/
def exConstraintT : Table Nat Nat :=
  ⟨[(0, [0, 4])],
   [.primary 0 100, .constraint (fun r => if fieldv r 1 = 0 then some 300 else none)]⟩

section InvDefs

variable [DecidableEq V] [Inhabited V]

/-- The mandatory `primary $table $id_field => $exists_error` declaration of
the `table!` macro's basic syntax: a `primary` declaration on the table's
`$pk` field is present. -/
def hasPrimary (pkf : Nat) (ixs : List (Index V E)) : Prop :=
  ∃ e, Index.primary pkf e ∈ ixs

/-- Consistency of one declared index container with the primary store
(spec §3, invariants 1–3): a unique container binds `v` to `k` exactly when
the stored record at `k` has field value `v`; a grouping container's set for
`v` is exactly (and without duplicates or empty leftovers) the keys of
stored records with field value `v`.  The other kinds own no container. -/
def indexInv (store : List (V × Rec V)) : Index V E → Prop
  | .unique fi _ m =>
      ∀ v k, lookupA m v = some k ↔ ∃ r, lookupA store k = some r ∧ fieldv r fi = v
  | .group fi m =>
      (∀ v s, lookupA m v = some s → s ≠ [] ∧ s.Nodup) ∧
      (∀ v k, (∃ s, lookupA m v = some s ∧ k ∈ s) ↔
        ∃ r, lookupA store k = some r ∧ fieldv r fi = v)
  | _ => True

/-- The table invariant the protocol maintains: the mandatory primary
declaration is present, every stored row carries its own key in the `$pk`
field, and every unique/grouping container is consistent with the store. -/
def TableInv (pkf : Nat) (t : Table V E) : Prop :=
  hasPrimary pkf t.indices ∧
  (∀ k r, lookupA t.store k = some r → fieldv r pkf = k) ∧
  ∀ ix ∈ t.indices, indexInv t.store ix

/-- Initial (empty-database) contents of a declared index's container. -/
def initIndex : Index V E → Prop
  | .unique _ _ m => m = []
  | .group _ m => m = []
  | _ => True

/-- The table-local parts of two declarations agree; the `foreign`/`reverse`
views of other tables' state may differ (those tables run their own
operations between this table's calls). -/
def sameOwn : Index V E → Index V E → Prop
  | .primary fi err, .primary fi' err' => fi = fi' ∧ err = err'
  | .unique fi err m, .unique fi' err' m' => fi = fi' ∧ err = err' ∧ m = m'
  | .group fi m, .group fi' m' => fi = fi' ∧ m = m'
  | .foreign fi err _, .foreign fi' err' _ => fi = fi' ∧ err = err'
  | .reverse fi err _, .reverse fi' err' _ => fi = fi' ∧ err = err'
  | .constraint c, .constraint c' => c = c'
  | _, _ => False

/-- Table states reachable from the empty database by successful
Insert/Update/Delete calls.  `init` is the freshly declared table (all own
containers empty; the macro's basic syntax mandates the `primary`
declaration on the `$pk` field); `env` lets the foreign/reverse views vary
as other tables run their own operations between this table's calls. -/
inductive Reachable (pkf : Nat) (missing : E) : Table V E → Prop where
  | init (t : Table V E) (hstore : t.store = [])
      (hixs : ∀ ix ∈ t.indices, initIndex ix)
      (hprim : hasPrimary pkf t.indices) : Reachable pkf missing t
  | env {t t' : Table V E} (h : Reachable pkf missing t)
      (hstore : t'.store = t.store)
      (hix : List.Forall₂ sameOwn t.indices t'.indices) : Reachable pkf missing t'
  | insert {t t' : Table V E} {r : Rec V} (h : Reachable pkf missing t)
      (hok : tableInsert pkf t r = (t', .ok ())) : Reachable pkf missing t'
  | update {t t' : Table V E} {new old : Rec V} (h : Reachable pkf missing t)
      (hok : tableUpdate pkf missing t new = (t', .ok old)) : Reachable pkf missing t'
  | delete {t t' : Table V E} {id : V} {row : Rec V} (h : Reachable pkf missing t)
      (hok : tableDelete pkf missing t id = (t', .ok row)) : Reachable pkf missing t'

end InvDefs

section OpLemmas

variable [DecidableEq V] [Inhabited V]

@[simp] theorem lookupA_nil {α : Type u} {β : Type v} [DecidableEq α] (k : α) :
    lookupA ([] : List (α × β)) k = none := rfl

@[simp] theorem lookupA_cons {α : Type u} {β : Type v} [DecidableEq α]
    (k₀ : α) (v₀ : β) (rest : List (α × β)) (k : α) :
    lookupA ((k₀, v₀) :: rest) k = if k = k₀ then some v₀ else lookupA rest k := rfl

theorem lookupA_insertA_self {α : Type u} {β : Type v} [DecidableEq α]
    (m : List (α × β)) (k : α) (v : β) : lookupA (insertA m k v) k = some v := by
  induction m with
  | nil => simp [insertA, lookupA]
  | cons hd tl ih =>
    obtain ⟨k₀, v₀⟩ := hd
    by_cases h : k = k₀ <;> simp [insertA, lookupA, h, ih]

theorem lookupA_insertA_ne {α : Type u} {β : Type v} [DecidableEq α]
    (m : List (α × β)) (k k' : α) (v : β) (h : k' ≠ k) :
    lookupA (insertA m k v) k' = lookupA m k' := by
  induction m with
  | nil => simp [insertA, lookupA, h]
  | cons hd tl ih =>
    obtain ⟨k₀, v₀⟩ := hd
    by_cases hk : k = k₀
    · subst hk
      simp [insertA, lookupA, h]
    · by_cases hk' : k' = k₀ <;> simp [insertA, lookupA, hk, hk', ih]

theorem lookupA_removeA_self {α : Type u} {β : Type v} [DecidableEq α]
    (m : List (α × β)) (k : α) : lookupA (removeA m k) k = none := by
  induction m with
  | nil => simp [removeA, lookupA]
  | cons hd tl ih =>
    obtain ⟨k₀, v₀⟩ := hd
    by_cases h : k = k₀
    · subst h
      simpa [removeA] using ih
    · simp [removeA, lookupA, h, ih]

theorem lookupA_removeA_ne {α : Type u} {β : Type v} [DecidableEq α]
    (m : List (α × β)) (k k' : α) (h : k' ≠ k) :
    lookupA (removeA m k) k' = lookupA m k' := by
  induction m with
  | nil => simp [removeA]
  | cons hd tl ih =>
    obtain ⟨k₀, v₀⟩ := hd
    by_cases hk : k = k₀
    · subst hk
      simp [removeA, lookupA, h, ih]
    · by_cases hk' : k' = k₀ <;> simp [removeA, lookupA, hk, hk', ih]

theorem lookupA_eq_none_of_keys {α : Type u} {β : Type v} [DecidableEq α]
    (l : List (α × β)) (k : α) (h : ∀ p ∈ l, p.1 ≠ k) : lookupA l k = none := by
  induction l with
  | nil => rfl
  | cons hd tl ih =>
    obtain ⟨k₀, v₀⟩ := hd
    have hne : k ≠ k₀ := fun he => h (k₀, v₀) (by simp) (by simp [he])
    simp only [lookupA_cons, hne, if_false]
    exact ih fun p hp => h p (List.mem_cons_of_mem _ hp)

theorem lookupA_insertA {α : Type u} {β : Type v} [DecidableEq α]
    (m : List (α × β)) (k k' : α) (v : β) :
    lookupA (insertA m k v) k' = if k' = k then some v else lookupA m k' := by
  by_cases h : k' = k
  · subst h
    simp [lookupA_insertA_self]
  · simp [h, lookupA_insertA_ne _ _ _ _ h]

theorem lookupA_removeA {α : Type u} {β : Type v} [DecidableEq α]
    (m : List (α × β)) (k k' : α) :
    lookupA (removeA m k) k' = if k' = k then none else lookupA m k' := by
  by_cases h : k' = k
  · subst h
    simp [lookupA_removeA_self]
  · simp [h, lookupA_removeA_ne _ _ _ h]

theorem forall2_mem_right {α β : Type*} {R : α → β → Prop} :
    ∀ {l₁ : List α} {l₂ : List β}, List.Forall₂ R l₁ l₂ →
      ∀ b ∈ l₂, ∃ a ∈ l₁, R a b := by
  intro l₁ l₂ h
  induction h with
  | nil =>
    intro b hb
    simp at hb
  | cons hR hrest ih =>
    intro b hb
    rcases List.mem_cons.mp hb with rfl | hb
    · exact ⟨_, by simp, hR⟩
    · obtain ⟨a, ha, hr⟩ := ih b hb
      exact ⟨a, List.mem_cons_of_mem _ ha, hr⟩

theorem forall2_mem_left {α β : Type*} {R : α → β → Prop} :
    ∀ {l₁ : List α} {l₂ : List β}, List.Forall₂ R l₁ l₂ →
      ∀ a ∈ l₁, ∃ b ∈ l₂, R a b := by
  intro l₁ l₂ h
  induction h with
  | nil =>
    intro a ha
    simp at ha
  | cons hR hrest ih =>
    intro a ha
    rcases List.mem_cons.mp ha with rfl | ha
    · exact ⟨_, by simp, hR⟩
    · obtain ⟨b, hb, hr⟩ := ih a ha
      exact ⟨b, List.mem_cons_of_mem _ hb, hr⟩

theorem deleteChecks_eq_err_of {pk : V} {ixs : List (Index V E)} {i : Nat}
    {ix : Index V E} {e : E}
    (hi : ixs[i]? = some ix) (hf : deleteCheck1 pk ix = (.err e : Res E Unit))
    (hmin : ∀ (j : Nat), j < i → ∀ ix', ixs[j]? = some ix' →
      deleteCheck1 pk ix' = (.ok () : Res E Unit)) :
    deleteChecks pk ixs = (.err e : Res E Unit) := by
  induction ixs generalizing i with
  | nil => simp at hi
  | cons ix₀ rest ih =>
    cases i with
    | zero =>
      simp only [List.getElem?_cons_zero, Option.some.injEq] at hi
      rw [← hi] at hf
      simp [deleteChecks, hf]
    | succ i' =>
      have h0 : deleteCheck1 pk ix₀ = (.ok () : Res E Unit) :=
        hmin 0 (Nat.succ_pos _) ix₀ (by simp)
      simp only [deleteChecks, h0]
      exact ih (by simpa using hi)
        (fun j hj ix' hj' => hmin (j + 1) (by omega) ix' (by simpa using hj'))

theorem deleteChecks_eq_ok_iff (pk : V) (ixs : List (Index V E)) :
    deleteChecks pk ixs = (.ok () : Res E Unit) ↔
      ∀ ix ∈ ixs, deleteCheck1 pk ix = (.ok () : Res E Unit) := by
  induction ixs with
  | nil => simp [deleteChecks]
  | cons ix₀ rest ih =>
    rcases h0 : deleteCheck1 pk ix₀ with v | e | _
    · cases v
      simp [deleteChecks, h0, ih]
    · simp [deleteChecks, h0]
    · simp [deleteChecks, h0]

theorem firstErr_eq_none_iff (f : Index V E → Option E) (ixs : List (Index V E)) :
    firstErr f ixs = none ↔ ∀ ix ∈ ixs, f ix = none := by
  induction ixs with
  | nil => simp [firstErr]
  | cons ix rest ih =>
    rcases hf : f ix with _ | e <;> simp [firstErr, hf, ih]

theorem firstErr_eq_some_iff (f : Index V E → Option E) (ixs : List (Index V E)) (e : E) :
    firstErr f ixs = some e ↔
      ∃ (i : Nat) (ix : Index V E), ixs[i]? = some ix ∧ f ix = some e ∧
        ∀ (j : Nat), j < i → ∀ ix', ixs[j]? = some ix' → f ix' = none := by
  induction ixs with
  | nil => simp [firstErr]
  | cons ix₀ rest ih =>
    rcases hf : f ix₀ with _ | e'
    · simp only [firstErr, hf]
      constructor
      · intro h
        obtain ⟨i, ix, hi, hfe, hmin⟩ := ih.mp h
        refine ⟨i + 1, ix, by simpa using hi, hfe, ?_⟩
        intro j hj ix' hj'
        cases j with
        | zero =>
          simp only [List.getElem?_cons_zero, Option.some.injEq] at hj'
          rw [← hj']
          exact hf
        | succ j' =>
          exact hmin j' (by omega) ix' (by simpa using hj')
      · rintro ⟨i, ix, hi, hfe, hmin⟩
        cases i with
        | zero =>
          simp only [List.getElem?_cons_zero, Option.some.injEq] at hi
          rw [← hi, hf] at hfe
          cases hfe
        | succ i' =>
          refine ih.mpr ⟨i', ix, by simpa using hi, hfe, ?_⟩
          intro j hj ix' hj'
          exact hmin (j + 1) (by omega) ix' (by simpa using hj')
    · simp only [firstErr, hf]
      constructor
      · intro h
        cases h
        exact ⟨0, ix₀, by simp, hf, fun j hj => absurd hj (Nat.not_lt_zero j)⟩
      · rintro ⟨i, ix, hi, hfe, hmin⟩
        cases i with
        | zero =>
          simp only [List.getElem?_cons_zero, Option.some.injEq] at hi
          rw [← hi, hf] at hfe
          exact hfe
        | succ i' =>
          have h0 := hmin 0 (Nat.succ_pos i') ix₀ (by simp)
          rw [hf] at h0
          cases h0

theorem firstErr_eq_some_of {f : Index V E → Option E} {ixs : List (Index V E)}
    {i : Nat} {ix : Index V E} {e : E}
    (hi : ixs[i]? = some ix) (hf : f ix = some e)
    (hmin : ∀ (j : Nat), j < i → ∀ ix', ixs[j]? = some ix' → f ix' = none) :
    firstErr f ixs = some e :=
  (firstErr_eq_some_iff f ixs e).mpr ⟨i, ix, hi, hf, hmin⟩

theorem mapIndices_forall2 {f : Index V E → Option (Index V E)} :
    ∀ {ixs ixs' : List (Index V E)}, mapIndices f ixs = some ixs' →
      List.Forall₂ (fun a b => f a = some b) ixs ixs'
  | [], ixs', h => by
    simp only [mapIndices, Option.some.injEq] at h
    rw [← h]
    exact .nil
  | ix :: rest, ixs', h => by
    rcases h1 : f ix with _ | ix'
    · rw [mapIndices, h1] at h
      cases h
    · rw [mapIndices, h1] at h
      rcases h2 : mapIndices f rest with _ | rest'
      · rw [h2] at h
        cases h
      · rw [h2] at h
        cases h
        exact .cons h1 (mapIndices_forall2 h2)

theorem forall2_getElem_right {α β : Type*} {R : α → β → Prop} :
    ∀ {l₁ : List α} {l₂ : List β}, List.Forall₂ R l₁ l₂ →
      ∀ (i : Nat) (b : β), l₂[i]? = some b → ∃ a, l₁[i]? = some a ∧ R a b := by
  intro l₁ l₂ h
  induction h with
  | nil =>
    intro i b hb
    simp at hb
  | cons hR hrest ih =>
    intro i b hb
    cases i with
    | zero =>
      simp only [List.getElem?_cons_zero, Option.some.injEq] at hb
      exact ⟨_, by simp, hb ▸ hR⟩
    | succ i' =>
      obtain ⟨a, ha, hr⟩ := ih i' b (by simpa using hb)
      exact ⟨a, by simpa using ha, hr⟩

theorem forall2_getElem_left {α β : Type*} {R : α → β → Prop} :
    ∀ {l₁ : List α} {l₂ : List β}, List.Forall₂ R l₁ l₂ →
      ∀ (i : Nat) (a : α), l₁[i]? = some a → ∃ b, l₂[i]? = some b ∧ R a b := by
  intro l₁ l₂ h
  induction h with
  | nil =>
    intro i a ha
    simp at ha
  | cons hR hrest ih =>
    intro i a ha
    cases i with
    | zero =>
      simp only [List.getElem?_cons_zero, Option.some.injEq] at ha
      exact ⟨_, by simp, ha ▸ hR⟩
    | succ i' =>
      obtain ⟨b, hb, hr⟩ := ih i' a (by simpa using ha)
      exact ⟨b, by simpa using hb, hr⟩

theorem insertIndex1_unique_inv {pk : V} {r : Rec V} {a : Index V E} {fi : Nat} {err : E}
    {m : List (V × V)} (h : insertIndex1 pk r a = some (.unique fi err m)) :
    ∃ m₀, a = .unique fi err m₀ ∧ lookupA m₀ (fieldv r fi) = none ∧
      m = insertA m₀ (fieldv r fi) pk := by
  cases a with
  | unique fi' err' m₀ =>
    by_cases hl : (lookupA m₀ (fieldv r fi')).isSome
    · simp [insertIndex1, hl] at h
    · simp only [insertIndex1, hl, Bool.false_eq_true, if_false, Option.some.injEq,
        Index.unique.injEq] at h
      obtain ⟨hfi, herr, hm⟩ := h
      subst hfi
      subst herr
      subst hm
      exact ⟨m₀, rfl, by simpa using hl, rfl⟩
  | group fi' m₀ =>
    by_cases hmem : pk ∈ (lookupA m₀ (fieldv r fi')).getD [] <;>
      simp [insertIndex1, hmem] at h
  | primary fi' err' => simp [insertIndex1] at h
  | foreign fi' err' other => simp [insertIndex1] at h
  | reverse fi' err' other => simp [insertIndex1] at h
  | constraint check => simp [insertIndex1] at h

theorem insertIndex1_group_inv {pk : V} {r : Rec V} {a : Index V E} {fi : Nat}
    {m : List (V × List V)} (h : insertIndex1 pk r a = some (.group fi m)) :
    ∃ m₀, a = .group fi m₀ ∧
      pk ∉ (lookupA m₀ (fieldv r fi)).getD [] ∧
      m = insertA m₀ (fieldv r fi) ((lookupA m₀ (fieldv r fi)).getD [] ++ [pk]) := by
  cases a with
  | group fi' m₀ =>
    by_cases hmem : pk ∈ (lookupA m₀ (fieldv r fi')).getD []
    · simp [insertIndex1, hmem] at h
    · simp only [insertIndex1, hmem, Bool.false_eq_true, if_false, Option.some.injEq,
        Index.group.injEq] at h
      obtain ⟨hfi, hm⟩ := h
      subst hfi
      subst hm
      exact ⟨m₀, rfl, hmem, rfl⟩
  | unique fi' err' m₀ =>
    by_cases hl : (lookupA m₀ (fieldv r fi')).isSome <;> simp [insertIndex1, hl] at h
  | primary fi' err' => simp [insertIndex1] at h
  | foreign fi' err' other => simp [insertIndex1] at h
  | reverse fi' err' other => simp [insertIndex1] at h
  | constraint check => simp [insertIndex1] at h

theorem tableInsert_check_err {pkf : Nat} {t : Table V E} {r : Rec V} {e : E}
    (h : insertChecks t.store r t.indices = some e) :
    tableInsert pkf t r = (t, .err e) := by
  simp [tableInsert, h]

theorem tableInsert_err_inv {pkf : Nat} {t : Table V E} {r : Rec V} {e : E}
    (h : (tableInsert pkf t r).2 = .err e) :
    insertChecks t.store r t.indices = some e ∧ (tableInsert pkf t r).1 = t := by
  rcases h1 : insertChecks t.store r t.indices with _ | e'
  · exfalso
    rcases h2 : mapIndices (insertIndex1 (fieldv r pkf) r) t.indices with _ | ixs <;>
      simp [tableInsert, h1, h2] at h
  · have he : e' = e := by simpa [tableInsert, h1] using h
    subst he
    exact ⟨rfl, by simp [tableInsert, h1]⟩

theorem tableInsert_ok_inv {pkf : Nat} {t t' : Table V E} {r : Rec V}
    (h : tableInsert pkf t r = (t', .ok ())) :
    insertChecks t.store r t.indices = none ∧
      t'.store = insertA t.store (fieldv r pkf) r ∧
      mapIndices (insertIndex1 (fieldv r pkf) r) t.indices = some t'.indices := by
  rcases h1 : insertChecks t.store r t.indices with _ | e'
  · rcases h2 : mapIndices (insertIndex1 (fieldv r pkf) r) t.indices with _ | ixs
    · simp [tableInsert, h1, h2] at h
    · simp only [tableInsert, h1, h2] at h
      cases h
      exact ⟨rfl, rfl, rfl⟩
  · simp [tableInsert, h1] at h

theorem tableUpdate_missing {pkf : Nat} {missing : E} {t : Table V E} {new : Rec V}
    (h : lookupA t.store (fieldv new pkf) = none) :
    tableUpdate pkf missing t new = (t, .err missing) := by
  simp [tableUpdate, h]

theorem tableUpdate_check_err {pkf : Nat} {missing : E} {t : Table V E} {old new : Rec V} {e : E}
    (hold : lookupA t.store (fieldv new pkf) = some old)
    (h : updateChecks old new t.indices = some e) :
    tableUpdate pkf missing t new = (t, .err e) := by
  simp [tableUpdate, hold, h]

theorem tableUpdate_err_inv {pkf : Nat} {missing : E} {t : Table V E} {new : Rec V} {e : E}
    (h : (tableUpdate pkf missing t new).2 = .err e) :
    (tableUpdate pkf missing t new).1 = t ∧
      (lookupA t.store (fieldv new pkf) = none ∧ e = missing ∨
        ∃ old, lookupA t.store (fieldv new pkf) = some old ∧
          updateChecks old new t.indices = some e) := by
  rcases h1 : lookupA t.store (fieldv new pkf) with _ | old
  · have he : missing = e := by simpa [tableUpdate, h1] using h
    subst he
    exact ⟨by simp [tableUpdate, h1], Or.inl ⟨rfl, rfl⟩⟩
  · rcases h2 : updateChecks old new t.indices with _ | e'
    · exfalso
      rcases h3 : mapIndices (updateIndex1 (fieldv old pkf) old new) t.indices with _ | ixs <;>
        simp [tableUpdate, h1, h2, h3] at h
    · have he : e' = e := by simpa [tableUpdate, h1, h2] using h
      subst he
      exact ⟨by simp [tableUpdate, h1, h2], Or.inr ⟨old, rfl, h2⟩⟩

theorem tableUpdate_ok_inv {pkf : Nat} {missing : E} {t t' : Table V E} {new old : Rec V}
    (h : tableUpdate pkf missing t new = (t', .ok old)) :
    lookupA t.store (fieldv new pkf) = some old ∧
      updateChecks old new t.indices = none ∧
      t'.store = insertA t.store (fieldv new pkf) new ∧
      mapIndices (updateIndex1 (fieldv old pkf) old new) t.indices = some t'.indices := by
  rcases h1 : lookupA t.store (fieldv new pkf) with _ | old'
  · simp [tableUpdate, h1] at h
  · rcases h2 : updateChecks old' new t.indices with _ | e'
    · rcases h3 : mapIndices (updateIndex1 (fieldv old' pkf) old' new) t.indices with _ | ixs
      · simp [tableUpdate, h1, h2, h3] at h
      · simp only [tableUpdate, h1, h2, h3] at h
        cases h
        exact ⟨rfl, h2, rfl, h3⟩
    · simp [tableUpdate, h1, h2] at h

theorem tableDelete_missing {pkf : Nat} {missing : E} {t : Table V E} {id : V}
    (h : lookupA t.store id = none) :
    tableDelete pkf missing t id = (t, .err missing) := by
  simp [tableDelete, h]

theorem tableDelete_check_err {pkf : Nat} {missing : E} {t : Table V E} {id : V} {row : Rec V}
    {e : E} (hrow : lookupA t.store id = some row)
    (h : deleteChecks (fieldv row pkf) t.indices = (.err e : Res E Unit)) :
    tableDelete pkf missing t id = (t, .err e) := by
  simp [tableDelete, hrow, h]

theorem tableDelete_err_inv {pkf : Nat} {missing : E} {t : Table V E} {id : V} {e : E}
    (h : (tableDelete pkf missing t id).2 = .err e) :
    (tableDelete pkf missing t id).1 = t ∧
      (lookupA t.store id = none ∧ e = missing ∨
        ∃ row, lookupA t.store id = some row ∧
          deleteChecks (fieldv row pkf) t.indices = (.err e : Res E Unit)) := by
  rcases h1 : lookupA t.store id with _ | row
  · have he : missing = e := by simpa [tableDelete, h1] using h
    subst he
    exact ⟨by simp [tableDelete, h1], Or.inl ⟨rfl, rfl⟩⟩
  · rcases h2 : deleteChecks (fieldv row pkf) t.indices with _ | e' | _
    · exfalso
      rcases h3 : mapIndices (deleteIndex1 (fieldv row pkf) row) t.indices with _ | ixs <;>
        simp [tableDelete, h1, h2, h3] at h
    · have he : e' = e := by simpa [tableDelete, h1, h2] using h
      subst he
      exact ⟨by simp [tableDelete, h1, h2], Or.inr ⟨row, rfl, h2⟩⟩
    · exfalso
      simp [tableDelete, h1, h2] at h

theorem tableDelete_ok_inv {pkf : Nat} {missing : E} {t t' : Table V E} {id : V} {row : Rec V}
    (h : tableDelete pkf missing t id = (t', .ok row)) :
    lookupA t.store id = some row ∧
      deleteChecks (fieldv row pkf) t.indices = (.ok () : Res E Unit) ∧
      t'.store = removeA t.store id ∧
      mapIndices (deleteIndex1 (fieldv row pkf) row) t.indices = some t'.indices := by
  rcases h1 : lookupA t.store id with _ | row'
  · simp [tableDelete, h1] at h
  · rcases h2 : deleteChecks (fieldv row' pkf) t.indices with _ | e' | _
    · rcases h3 : mapIndices (deleteIndex1 (fieldv row' pkf) row') t.indices with _ | ixs
      · simp [tableDelete, h1, h2, h3] at h
      · simp only [tableDelete, h1, h2, h3] at h
        cases h
        exact ⟨rfl, h2, rfl, h3⟩
    · simp [tableDelete, h1, h2] at h
    · simp [tableDelete, h1, h2] at h

theorem indexInv_insert_step {store : List (V × Rec V)} {r : Rec V} {pkf : Nat}
    {a b : Index V E}
    (hfresh : lookupA store (fieldv r pkf) = none)
    (hinv : indexInv store a)
    (h : insertIndex1 (fieldv r pkf) r a = some b) :
    indexInv (insertA store (fieldv r pkf) r) b := by
  cases a with
  | primary fi err =>
    cases h
    trivial
  | foreign fi err other =>
    cases h
    trivial
  | reverse fi err other =>
    cases h
    trivial
  | constraint check =>
    cases h
    trivial
  | unique fi err m₀ =>
    simp only [indexInv] at hinv
    by_cases hl : (lookupA m₀ (fieldv r fi)).isSome
    · simp [insertIndex1, hl] at h
    · rw [Option.not_isSome_iff_eq_none] at hl
      simp only [insertIndex1, hl, Option.isSome_none, Bool.false_eq_true, if_false] at h
      cases h
      simp only [indexInv]
      intro v k
      rw [lookupA_insertA]
      constructor
      · intro hm
        by_cases hv : v = fieldv r fi
        · rw [if_pos hv] at hm
          cases hm
          refine ⟨r, ?_, hv.symm⟩
          rw [lookupA_insertA, if_pos rfl]
        · rw [if_neg hv] at hm
          obtain ⟨rec, hrec, hfv⟩ := (hinv v k).mp hm
          by_cases hk : k = fieldv r pkf
          · rw [hk, hfresh] at hrec
            cases hrec
          · exact ⟨rec, by rw [lookupA_insertA, if_neg hk]; exact hrec, hfv⟩
      · rintro ⟨rec, hrec, hfv⟩
        rw [lookupA_insertA] at hrec
        by_cases hk : k = fieldv r pkf
        · rw [if_pos hk] at hrec
          cases hrec
          rw [if_pos hfv.symm, hk]
        · rw [if_neg hk] at hrec
          have hm := (hinv v k).mpr ⟨rec, hrec, hfv⟩
          by_cases hv : v = fieldv r fi
          · rw [hv, hl] at hm
            cases hm
          · rw [if_neg hv]
            exact hm
  | group fi m₀ =>
    obtain ⟨hne, hiff⟩ := hinv
    by_cases hmem : (fieldv r pkf) ∈ (lookupA m₀ (fieldv r fi)).getD []
    · simp [insertIndex1, hmem] at h
    · simp only [insertIndex1, hmem, Bool.false_eq_true, if_false] at h
      cases h
      have hs₀nodup : ((lookupA m₀ (fieldv r fi)).getD []).Nodup := by
        rcases hl : lookupA m₀ (fieldv r fi) with _ | s₀'
        · simp
        · simpa using (hne _ s₀' hl).2
      constructor
      · intro v s hs
        rw [lookupA_insertA] at hs
        by_cases hv : v = fieldv r fi
        · rw [if_pos hv] at hs
          cases hs
          refine ⟨by simp, ?_⟩
          rw [List.nodup_append]
          refine ⟨hs₀nodup, List.nodup_singleton _, ?_⟩
          intro x hx hx'
          rw [List.mem_singleton] at hx'
          subst hx'
          exact hmem hx
        · rw [if_neg hv] at hs
          exact hne v s hs
      · intro v k
        constructor
        · rintro ⟨s, hs, hks⟩
          rw [lookupA_insertA] at hs
          by_cases hv : v = fieldv r fi
          · subst hv
            rw [if_pos rfl] at hs
            cases hs
            rcases List.mem_append.mp hks with hk0 | hk1
            · rcases hl : lookupA m₀ (fieldv r fi) with _ | s₀'
              · rw [hl] at hk0
                simp at hk0
              · rw [hl] at hk0
                simp only [Option.getD_some] at hk0
                obtain ⟨rec, hrec, hfv⟩ := (hiff _ k).mp ⟨s₀', hl, hk0⟩
                by_cases hk : k = fieldv r pkf
                · rw [hk, hfresh] at hrec
                  cases hrec
                · exact ⟨rec, by rw [lookupA_insertA, if_neg hk]; exact hrec, hfv⟩
            · rw [List.mem_singleton] at hk1
              subst hk1
              exact ⟨r, by rw [lookupA_insertA, if_pos rfl], rfl⟩
          · rw [if_neg hv] at hs
            obtain ⟨rec, hrec, hfv⟩ := (hiff v k).mp ⟨s, hs, hks⟩
            by_cases hk : k = fieldv r pkf
            · rw [hk, hfresh] at hrec
              cases hrec
            · exact ⟨rec, by rw [lookupA_insertA, if_neg hk]; exact hrec, hfv⟩
        · rintro ⟨rec, hrec, hfv⟩
          rw [lookupA_insertA] at hrec
          by_cases hk : k = fieldv r pkf
          · rw [if_pos hk] at hrec
            cases hrec
            refine ⟨(lookupA m₀ (fieldv r fi)).getD [] ++ [fieldv r pkf], ?_, ?_⟩
            · rw [lookupA_insertA, if_pos hfv.symm]
            · rw [hk]
              simp
          · rw [if_neg hk] at hrec
            obtain ⟨s, hs, hks⟩ := (hiff v k).mpr ⟨rec, hrec, hfv⟩
            by_cases hv : v = fieldv r fi
            · subst hv
              refine ⟨(lookupA m₀ (fieldv r fi)).getD [] ++ [fieldv r pkf], ?_, ?_⟩
              · rw [lookupA_insertA, if_pos rfl]
              · rw [hs]
                simp only [Option.getD_some]
                exact List.mem_append_left _ hks
            · exact ⟨s, by rw [lookupA_insertA, if_neg hv]; exact hs, hks⟩

theorem indexInv_delete_step {store : List (V × Rec V)} {row : Rec V} {pkf : Nat}
    {a b : Index V E}
    (hrow : lookupA store (fieldv row pkf) = some row)
    (hinv : indexInv store a)
    (h : deleteIndex1 (fieldv row pkf) row a = some b) :
    indexInv (removeA store (fieldv row pkf)) b := by
  cases a with
  | primary fi err =>
    cases h
    trivial
  | foreign fi err other =>
    cases h
    trivial
  | constraint check =>
    cases h
    trivial
  | reverse fi err other =>
    rcases hl : lookupA other (fieldv row pkf) with _ | s
    · simp only [deleteIndex1, hl] at h
      cases h
      trivial
    · by_cases hemp : s.isEmpty
      · simp only [deleteIndex1, hl, hemp, if_pos rfl] at h
        cases h
        trivial
      · simp [deleteIndex1, hl, hemp] at h
  | unique fi err m₀ =>
    simp only [indexInv] at hinv
    rcases hl : lookupA m₀ (fieldv row fi) with _ | k₀
    · simp [deleteIndex1, hl] at h
    · by_cases hk₀ : k₀ = fieldv row pkf
      · subst hk₀
        simp only [deleteIndex1, hl, if_pos rfl] at h
        cases h
        simp only [indexInv]
        intro v k
        rw [lookupA_removeA]
        constructor
        · intro hm
          by_cases hv : v = fieldv row fi
          · rw [if_pos hv] at hm
            cases hm
          · rw [if_neg hv] at hm
            obtain ⟨rec, hrec, hfv⟩ := (hinv v k).mp hm
            by_cases hk : k = fieldv row pkf
            · rw [hk, hrow] at hrec
              cases hrec
              exact absurd hfv.symm hv
            · exact ⟨rec, by rw [lookupA_removeA, if_neg hk]; exact hrec, hfv⟩
        · rintro ⟨rec, hrec, hfv⟩
          rw [lookupA_removeA] at hrec
          by_cases hk : k = fieldv row pkf
          · rw [if_pos hk] at hrec
            cases hrec
          · rw [if_neg hk] at hrec
            have hm := (hinv v k).mpr ⟨rec, hrec, hfv⟩
            by_cases hv : v = fieldv row fi
            · rw [hv, hl] at hm
              cases hm
              exact absurd rfl hk
            · rw [if_neg hv]
              exact hm
      · simp [deleteIndex1, hl, hk₀] at h
  | group fi m₀ =>
    obtain ⟨hne, hiff⟩ := hinv
    rcases hl : lookupA m₀ (fieldv row fi) with _ | s₀
    · simp [deleteIndex1, hl] at h
    · by_cases hmem : (fieldv row pkf) ∈ s₀
      · have hs₀nodup : s₀.Nodup := (hne _ s₀ hl).2
        by_cases hemp : (s₀.erase (fieldv row pkf)).isEmpty
        · have herase : s₀.erase (fieldv row pkf) = [] := by
            rwa [List.isEmpty_iff] at hemp
          simp only [deleteIndex1, hl, hmem, if_pos rfl, hemp] at h
          cases h
          constructor
          · intro v s hs
            rw [lookupA_removeA] at hs
            by_cases hv : v = fieldv row fi
            · rw [if_pos hv] at hs
              cases hs
            · rw [if_neg hv] at hs
              exact hne v s hs
          · intro v k
            constructor
            · rintro ⟨s, hs, hks⟩
              rw [lookupA_removeA] at hs
              by_cases hv : v = fieldv row fi
              · rw [if_pos hv] at hs
                cases hs
              · rw [if_neg hv] at hs
                obtain ⟨rec, hrec, hfv⟩ := (hiff v k).mp ⟨s, hs, hks⟩
                by_cases hk : k = fieldv row pkf
                · rw [hk, hrow] at hrec
                  cases hrec
                  exact absurd hfv.symm hv
                · exact ⟨rec, by rw [lookupA_removeA, if_neg hk]; exact hrec, hfv⟩
            · rintro ⟨rec, hrec, hfv⟩
              rw [lookupA_removeA] at hrec
              by_cases hk : k = fieldv row pkf
              · rw [if_pos hk] at hrec
                cases hrec
              · rw [if_neg hk] at hrec
                obtain ⟨s, hs, hks⟩ := (hiff v k).mpr ⟨rec, hrec, hfv⟩
                by_cases hv : v = fieldv row fi
                · rw [hv, hl] at hs
                  cases hs
                  have : k ∈ s₀.erase (fieldv row pkf) :=
                    (hs₀nodup.mem_erase_iff).mpr ⟨hk, hks⟩
                  rw [herase] at this
                  simp at this
                · exact ⟨s, by rw [lookupA_removeA, if_neg hv]; exact hs, hks⟩
        · simp only [deleteIndex1, hl, hmem, if_pos rfl, hemp, Bool.false_eq_true,
            if_false] at h
          cases h
          constructor
          · intro v s hs
            rw [lookupA_insertA] at hs
            by_cases hv : v = fieldv row fi
            · rw [if_pos hv] at hs
              cases hs
              refine ⟨?_, hs₀nodup.erase _⟩
              intro hnil
              rw [hnil] at hemp
              simp at hemp
            · rw [if_neg hv] at hs
              exact hne v s hs
          · intro v k
            constructor
            · rintro ⟨s, hs, hks⟩
              rw [lookupA_insertA] at hs
              by_cases hv : v = fieldv row fi
              · subst hv
                rw [if_pos rfl] at hs
                cases hs
                obtain ⟨hk, hks₀⟩ := (hs₀nodup.mem_erase_iff).mp hks
                obtain ⟨rec, hrec, hfv⟩ := (hiff _ k).mp ⟨s₀, hl, hks₀⟩
                exact ⟨rec, by rw [lookupA_removeA, if_neg hk]; exact hrec, hfv⟩
              · rw [if_neg hv] at hs
                obtain ⟨rec, hrec, hfv⟩ := (hiff v k).mp ⟨s, hs, hks⟩
                by_cases hk : k = fieldv row pkf
                · rw [hk, hrow] at hrec
                  cases hrec
                  exact absurd hfv.symm hv
                · exact ⟨rec, by rw [lookupA_removeA, if_neg hk]; exact hrec, hfv⟩
            · rintro ⟨rec, hrec, hfv⟩
              rw [lookupA_removeA] at hrec
              by_cases hk : k = fieldv row pkf
              · rw [if_pos hk] at hrec
                cases hrec
              · rw [if_neg hk] at hrec
                obtain ⟨s, hs, hks⟩ := (hiff v k).mpr ⟨rec, hrec, hfv⟩
                by_cases hv : v = fieldv row fi
                · subst hv
                  rw [hl] at hs
                  cases hs
                  refine ⟨s₀.erase (fieldv row pkf), ?_, ?_⟩
                  · rw [lookupA_insertA, if_pos rfl]
                  · exact (hs₀nodup.mem_erase_iff).mpr ⟨hk, hks⟩
                · exact ⟨s, by rw [lookupA_insertA, if_neg hv]; exact hs, hks⟩
      · simp [deleteIndex1, hl, hmem] at h

theorem indexInv_update_step_unique {store : List (V × Rec V)} {old new : Rec V}
    {pkf : Nat} {b : Index V E} {fi : Nat} {err : E} {m₀ : List (V × V)}
    (hold : lookupA store (fieldv new pkf) = some old)
    (hcheck : updateCheck1 old new (.unique fi err m₀) = none)
    (hinv : indexInv store (.unique fi err m₀ : Index V E))
    (h : updateIndex1 (fieldv new pkf) old new (.unique fi err m₀) = some b) :
    indexInv (insertA store (fieldv new pkf) new) b := by
  simp only [indexInv] at hinv
  by_cases hch : fieldv old fi = fieldv new fi
  · simp only [updateIndex1, if_pos hch] at h
    cases h
    simp only [indexInv]
    intro v k
    constructor
    · intro hm
      obtain ⟨rec, hrec, hfv⟩ := (hinv v k).mp hm
      by_cases hk : k = fieldv new pkf
      · rw [hk, hold] at hrec
        cases hrec
        refine ⟨new, ?_, by rw [← hch, hfv]⟩
        rw [hk, lookupA_insertA, if_pos rfl]
      · exact ⟨rec, by rw [lookupA_insertA, if_neg hk]; exact hrec, hfv⟩
    · rintro ⟨rec, hrec, hfv⟩
      rw [lookupA_insertA] at hrec
      by_cases hk : k = fieldv new pkf
      · rw [if_pos hk] at hrec
        cases hrec
        refine (hinv v k).mpr ⟨old, ?_, by rw [← hfv, hch]⟩
        rw [hk]
        exact hold
      · rw [if_neg hk] at hrec
        exact (hinv v k).mpr ⟨rec, hrec, hfv⟩
  · have hnew : lookupA m₀ (fieldv new fi) = none := by
      simp only [updateCheck1, if_neg hch] at hcheck
      by_cases hl2 : (lookupA m₀ (fieldv new fi)).isSome
      · rw [if_pos hl2] at hcheck
        cases hcheck
      · rwa [Option.not_isSome_iff_eq_none] at hl2
    simp only [updateIndex1, if_neg hch] at h
    rcases hl : lookupA m₀ (fieldv old fi) with _ | k₀
    · simp [hl] at h
    · simp only [hl] at h
      by_cases hk₀ : k₀ = fieldv new pkf
      · subst hk₀
        rw [if_pos rfl] at h
        by_cases hl2 : (lookupA (removeA m₀ (fieldv old fi)) (fieldv new fi)).isSome
        · rw [if_pos hl2] at h
          cases h
        · rw [Option.not_isSome_iff_eq_none] at hl2
          rw [hl2] at h
          simp only [Option.isSome_none, Bool.false_eq_true, if_false] at h
          cases h
          simp only [indexInv]
          intro v k
          rw [lookupA_insertA, lookupA_removeA]
          constructor
          · intro hm
            by_cases hv : v = fieldv new fi
            · rw [if_pos hv] at hm
              cases hm
              refine ⟨new, ?_, hv.symm⟩
              rw [lookupA_insertA, if_pos rfl]
            · rw [if_neg hv] at hm
              by_cases hvo : v = fieldv old fi
              · rw [if_pos hvo] at hm
                cases hm
              · rw [if_neg hvo] at hm
                obtain ⟨rec, hrec, hfv⟩ := (hinv v k).mp hm
                by_cases hk : k = fieldv new pkf
                · rw [hk, hold] at hrec
                  cases hrec
                  exact absurd hfv.symm hvo
                · exact ⟨rec, by rw [lookupA_insertA, if_neg hk]; exact hrec, hfv⟩
          · rintro ⟨rec, hrec, hfv⟩
            rw [lookupA_insertA] at hrec
            by_cases hk : k = fieldv new pkf
            · rw [if_pos hk] at hrec
              cases hrec
              rw [if_pos hfv.symm, hk]
            · rw [if_neg hk] at hrec
              have hm := (hinv v k).mpr ⟨rec, hrec, hfv⟩
              by_cases hv : v = fieldv new fi
              · rw [hv, hnew] at hm
                cases hm
              · rw [if_neg hv]
                by_cases hvo : v = fieldv old fi
                · rw [hvo, hl] at hm
                  cases hm
                  exact absurd rfl hk
                · rw [if_neg hvo]
                  exact hm
      · rw [if_neg hk₀] at h
        cases h

theorem indexInv_update_step_group {store : List (V × Rec V)} {old new : Rec V}
    {pkf : Nat} {b : Index V E} {fi : Nat} {m₀ : List (V × List V)}
    (hold : lookupA store (fieldv new pkf) = some old)
    (hinv : indexInv store (.group fi m₀ : Index V E))
    (h : updateIndex1 (fieldv new pkf) old new (.group fi m₀) = some b) :
    indexInv (insertA store (fieldv new pkf) new) b := by
  obtain ⟨hne, hiff⟩ := hinv
  by_cases hch : fieldv old fi = fieldv new fi
  · simp only [updateIndex1, if_pos hch] at h
    cases h
    refine ⟨hne, ?_⟩
    intro v k
    constructor
    · rintro ⟨s, hs, hks⟩
      obtain ⟨rec, hrec, hfv⟩ := (hiff v k).mp ⟨s, hs, hks⟩
      by_cases hk : k = fieldv new pkf
      · rw [hk, hold] at hrec
        cases hrec
        refine ⟨new, ?_, by rw [← hch, hfv]⟩
        rw [hk, lookupA_insertA, if_pos rfl]
      · exact ⟨rec, by rw [lookupA_insertA, if_neg hk]; exact hrec, hfv⟩
    · rintro ⟨rec, hrec, hfv⟩
      rw [lookupA_insertA] at hrec
      by_cases hk : k = fieldv new pkf
      · rw [if_pos hk] at hrec
        cases hrec
        refine (hiff v k).mpr ⟨old, ?_, by rw [← hfv, hch]⟩
        rw [hk]
        exact hold
      · rw [if_neg hk] at hrec
        exact (hiff v k).mpr ⟨rec, hrec, hfv⟩
  · have hnewold : fieldv new fi ≠ fieldv old fi := fun hh => hch hh.symm
    simp only [updateIndex1, if_neg hch] at h
    rcases hl : lookupA m₀ (fieldv old fi) with _ | s₀
    · simp [hl] at h
    · simp only [hl] at h
      by_cases hmem : (fieldv new pkf) ∈ s₀
      swap
      · rw [if_neg hmem] at h
        cases h
      rw [if_pos hmem] at h
      have hs₀nodup : s₀.Nodup := (hne _ s₀ hl).2
      have hs₂nodup : ((lookupA m₀ (fieldv new fi)).getD []).Nodup := by
        rcases hln : lookupA m₀ (fieldv new fi) with _ | s₂'
        · simp
        · simpa using (hne _ s₂' hln).2
      by_cases hemp : ((s₀.erase (fieldv new pkf)).isEmpty : Prop)
      · have herase : s₀.erase (fieldv new pkf) = [] := by
          rwa [List.isEmpty_iff] at hemp
        have hall : ∀ k ∈ s₀, k = fieldv new pkf := by
          intro k hk
          by_contra hkne
          have : k ∈ s₀.erase (fieldv new pkf) := hs₀nodup.mem_erase_iff.mpr ⟨hkne, hk⟩
          rw [herase] at this
          simp at this
        simp only [hemp, if_true] at h
        rw [lookupA_removeA_ne m₀ _ _ hnewold] at h
        by_cases hs₂ : (fieldv new pkf) ∈ (lookupA m₀ (fieldv new fi)).getD []
        · rw [if_pos hs₂] at h
          cases h
        · rw [if_neg hs₂] at h
          cases h
          constructor
          · intro v s hs
            rw [lookupA_insertA] at hs
            by_cases hv : v = fieldv new fi
            · rw [if_pos hv] at hs
              cases hs
              refine ⟨by simp, ?_⟩
              rw [List.nodup_append]
              refine ⟨hs₂nodup, List.nodup_singleton _, ?_⟩
              intro x hx hx'
              rw [List.mem_singleton] at hx'
              subst hx'
              exact hs₂ hx
            · rw [if_neg hv, lookupA_removeA] at hs
              by_cases hvo : v = fieldv old fi
              · rw [if_pos hvo] at hs
                cases hs
              · rw [if_neg hvo] at hs
                exact hne v s hs
          · intro v k
            constructor
            · rintro ⟨s, hs, hks⟩
              rw [lookupA_insertA] at hs
              by_cases hv : v = fieldv new fi
              · subst hv
                rw [if_pos rfl] at hs
                cases hs
                rcases List.mem_append.mp hks with hk0 | hk1
                · rcases hln : lookupA m₀ (fieldv new fi) with _ | s₂'
                  · rw [hln] at hk0
                    simp at hk0
                  · rw [hln] at hk0
                    simp only [Option.getD_some] at hk0
                    obtain ⟨rec, hrec, hfv⟩ := (hiff _ k).mp ⟨s₂', hln, hk0⟩
                    by_cases hk : k = fieldv new pkf
                    · rw [hk, hold] at hrec
                      cases hrec
                      exact absurd hfv hch
                    · exact ⟨rec, by rw [lookupA_insertA, if_neg hk]; exact hrec, hfv⟩
                · rw [List.mem_singleton] at hk1
                  subst hk1
                  exact ⟨new, by rw [lookupA_insertA, if_pos rfl], rfl⟩
              · rw [if_neg hv, lookupA_removeA] at hs
                by_cases hvo : v = fieldv old fi
                · rw [if_pos hvo] at hs
                  cases hs
                · rw [if_neg hvo] at hs
                  obtain ⟨rec, hrec, hfv⟩ := (hiff v k).mp ⟨s, hs, hks⟩
                  by_cases hk : k = fieldv new pkf
                  · rw [hk, hold] at hrec
                    cases hrec
                    exact absurd hfv.symm hvo
                  · exact ⟨rec, by rw [lookupA_insertA, if_neg hk]; exact hrec, hfv⟩
            · rintro ⟨rec, hrec, hfv⟩
              rw [lookupA_insertA] at hrec
              by_cases hk : k = fieldv new pkf
              · rw [if_pos hk] at hrec
                cases hrec
                refine ⟨(lookupA m₀ (fieldv new fi)).getD [] ++ [fieldv new pkf], ?_, ?_⟩
                · rw [lookupA_insertA, if_pos hfv.symm]
                · rw [hk]
                  simp
              · rw [if_neg hk] at hrec
                obtain ⟨s, hs, hks⟩ := (hiff v k).mpr ⟨rec, hrec, hfv⟩
                by_cases hv : v = fieldv new fi
                · subst hv
                  refine ⟨(lookupA m₀ (fieldv new fi)).getD [] ++ [fieldv new pkf], ?_, ?_⟩
                  · rw [lookupA_insertA, if_pos rfl]
                  · rw [hs]
                    simp only [Option.getD_some]
                    exact List.mem_append_left _ hks
                · by_cases hvo : v = fieldv old fi
                  · subst hvo
                    rw [hl] at hs
                    cases hs
                    exact absurd (hall k hks) hk
                  · refine ⟨s, ?_, hks⟩
                    rw [lookupA_insertA, if_neg hv, lookupA_removeA, if_neg hvo]
                    exact hs
      · have hsena : (s₀.erase (fieldv new pkf)) ≠ [] := by
          intro hnil
          rw [hnil] at hemp
          simp at hemp
        simp only [hemp, Bool.false_eq_true, if_false] at h
        rw [lookupA_insertA_ne m₀ _ _ _ hnewold] at h
        by_cases hs₂ : (fieldv new pkf) ∈ (lookupA m₀ (fieldv new fi)).getD []
        · rw [if_pos hs₂] at h
          cases h
        · rw [if_neg hs₂] at h
          cases h
          constructor
          · intro v s hs
            rw [lookupA_insertA] at hs
            by_cases hv : v = fieldv new fi
            · rw [if_pos hv] at hs
              cases hs
              refine ⟨by simp, ?_⟩
              rw [List.nodup_append]
              refine ⟨hs₂nodup, List.nodup_singleton _, ?_⟩
              intro x hx hx'
              rw [List.mem_singleton] at hx'
              subst hx'
              exact hs₂ hx
            · rw [if_neg hv, lookupA_insertA] at hs
              by_cases hvo : v = fieldv old fi
              · rw [if_pos hvo] at hs
                cases hs
                exact ⟨hsena, hs₀nodup.erase _⟩
              · rw [if_neg hvo] at hs
                exact hne v s hs
          · intro v k
            constructor
            · rintro ⟨s, hs, hks⟩
              rw [lookupA_insertA] at hs
              by_cases hv : v = fieldv new fi
              · subst hv
                rw [if_pos rfl] at hs
                cases hs
                rcases List.mem_append.mp hks with hk0 | hk1
                · rcases hln : lookupA m₀ (fieldv new fi) with _ | s₂'
                  · rw [hln] at hk0
                    simp at hk0
                  · rw [hln] at hk0
                    simp only [Option.getD_some] at hk0
                    obtain ⟨rec, hrec, hfv⟩ := (hiff _ k).mp ⟨s₂', hln, hk0⟩
                    by_cases hk : k = fieldv new pkf
                    · rw [hk, hold] at hrec
                      cases hrec
                      exact absurd hfv hch
                    · exact ⟨rec, by rw [lookupA_insertA, if_neg hk]; exact hrec, hfv⟩
                · rw [List.mem_singleton] at hk1
                  subst hk1
                  exact ⟨new, by rw [lookupA_insertA, if_pos rfl], rfl⟩
              · rw [if_neg hv, lookupA_insertA] at hs
                by_cases hvo : v = fieldv old fi
                · rw [if_pos hvo] at hs
                  cases hs
                  obtain ⟨hkne, hks₀⟩ := hs₀nodup.mem_erase_iff.mp hks
                  obtain ⟨rec, hrec, hfv⟩ := (hiff v k).mp ⟨s₀, by rw [hvo]; exact hl, hks₀⟩
                  exact ⟨rec, by rw [lookupA_insertA, if_neg hkne]; exact hrec, hfv⟩
                · rw [if_neg hvo] at hs
                  obtain ⟨rec, hrec, hfv⟩ := (hiff v k).mp ⟨s, hs, hks⟩
                  by_cases hk : k = fieldv new pkf
                  · rw [hk, hold] at hrec
                    cases hrec
                    exact absurd hfv.symm hvo
                  · exact ⟨rec, by rw [lookupA_insertA, if_neg hk]; exact hrec, hfv⟩
            · rintro ⟨rec, hrec, hfv⟩
              rw [lookupA_insertA] at hrec
              by_cases hk : k = fieldv new pkf
              · rw [if_pos hk] at hrec
                cases hrec
                refine ⟨(lookupA m₀ (fieldv new fi)).getD [] ++ [fieldv new pkf], ?_, ?_⟩
                · rw [lookupA_insertA, if_pos hfv.symm]
                · rw [hk]
                  simp
              · rw [if_neg hk] at hrec
                obtain ⟨s, hs, hks⟩ := (hiff v k).mpr ⟨rec, hrec, hfv⟩
                by_cases hv : v = fieldv new fi
                · subst hv
                  refine ⟨(lookupA m₀ (fieldv new fi)).getD [] ++ [fieldv new pkf], ?_, ?_⟩
                  · rw [lookupA_insertA, if_pos rfl]
                  · rw [hs]
                    simp only [Option.getD_some]
                    exact List.mem_append_left _ hks
                · by_cases hvo : v = fieldv old fi
                  · subst hvo
                    rw [hl] at hs
                    cases hs
                    refine ⟨s₀.erase (fieldv new pkf), ?_, ?_⟩
                    · rw [lookupA_insertA, if_neg hv, lookupA_insertA, if_pos rfl]
                    · exact hs₀nodup.mem_erase_iff.mpr ⟨hk, hks⟩
                  · refine ⟨s, ?_, hks⟩
                    rw [lookupA_insertA, if_neg hv, lookupA_insertA, if_neg hvo]
                    exact hs

theorem indexInv_update_step {store : List (V × Rec V)} {old new : Rec V}
    {pkf : Nat} {a b : Index V E}
    (hold : lookupA store (fieldv new pkf) = some old)
    (hcheck : updateCheck1 old new a = none)
    (hinv : indexInv store a)
    (h : updateIndex1 (fieldv new pkf) old new a = some b) :
    indexInv (insertA store (fieldv new pkf) new) b := by
  cases a with
  | primary fi err =>
    cases h
    trivial
  | foreign fi err other =>
    cases h
    trivial
  | constraint check =>
    cases h
    trivial
  | reverse fi err other =>
    by_cases hch : fieldv old fi = fieldv new fi
    · simp only [updateIndex1, if_pos hch] at h
      cases h
      trivial
    · simp only [updateIndex1, if_neg hch] at h
      rcases hl : lookupA other (fieldv new pkf) with _ | s
      · simp only [hl] at h
        cases h
        trivial
      · simp only [hl] at h
        by_cases hemp : (s.isEmpty : Prop)
        · rw [if_pos hemp] at h
          cases h
          trivial
        · rw [if_neg hemp] at h
          cases h
  | unique fi err m₀ => exact indexInv_update_step_unique hold hcheck hinv h
  | group fi m₀ => exact indexInv_update_step_group hold hinv h

theorem indexInv_sameOwn {store : List (V × Rec V)} {a b : Index V E}
    (hr : sameOwn a b) (hinv : indexInv store a) : indexInv store b := by
  cases b with
  | primary fi err => trivial
  | foreign fi err other => trivial
  | reverse fi err other => trivial
  | constraint c => trivial
  | unique fi err m =>
    cases a with
    | unique fi' err' m' =>
      obtain ⟨h1, h2, h3⟩ := hr
      subst h1
      subst h2
      subst h3
      exact hinv
    | primary fi' err' => simp [sameOwn] at hr
    | group fi' m' => simp [sameOwn] at hr
    | foreign fi' err' other' => simp [sameOwn] at hr
    | reverse fi' err' other' => simp [sameOwn] at hr
    | constraint c' => simp [sameOwn] at hr
  | group fi m =>
    cases a with
    | group fi' m' =>
      obtain ⟨h1, h2⟩ := hr
      subst h1
      subst h2
      exact hinv
    | primary fi' err' => simp [sameOwn] at hr
    | unique fi' err' m' => simp [sameOwn] at hr
    | foreign fi' err' other' => simp [sameOwn] at hr
    | reverse fi' err' other' => simp [sameOwn] at hr
    | constraint c' => simp [sameOwn] at hr

theorem hasPrimary_sameOwn {pkf : Nat} {l l' : List (Index V E)}
    (hix : List.Forall₂ sameOwn l l') (hp : hasPrimary pkf l) : hasPrimary pkf l' := by
  obtain ⟨e, he⟩ := hp
  obtain ⟨b, hb, hr⟩ := forall2_mem_left hix _ he
  cases b with
  | primary fi' err' =>
    obtain ⟨h1, h2⟩ := hr
    subst h1
    subst h2
    exact ⟨_, hb⟩
  | unique fi' err' m' => simp [sameOwn] at hr
  | group fi' m' => simp [sameOwn] at hr
  | foreign fi' err' other' => simp [sameOwn] at hr
  | reverse fi' err' other' => simp [sameOwn] at hr
  | constraint c' => simp [sameOwn] at hr

theorem hasPrimary_mapIndices {pkf : Nat} {l l' : List (Index V E)}
    {f : Index V E → Option (Index V E)}
    (hpres : ∀ (fi : Nat) (err : E), f (.primary fi err) = some (.primary fi err))
    (hmap : mapIndices f l = some l') (hp : hasPrimary pkf l) : hasPrimary pkf l' := by
  obtain ⟨e, he⟩ := hp
  obtain ⟨b, hb, hr⟩ := forall2_mem_left (mapIndices_forall2 hmap) _ he
  rw [hpres] at hr
  cases hr
  exact ⟨e, hb⟩

theorem mapIndices_eq_some_of {f : Index V E → Option (Index V E)} :
    ∀ {ixs : List (Index V E)}, (∀ ix ∈ ixs, (f ix).isSome) →
      ∃ ixs', mapIndices f ixs = some ixs' := by
  intro ixs
  induction ixs with
  | nil => exact fun _ => ⟨[], rfl⟩
  | cons ix₀ rest ih =>
    intro hall
    obtain ⟨b, hb⟩ := Option.isSome_iff_exists.mp (hall ix₀ (by simp))
    obtain ⟨rest', hrest⟩ := ih fun ix hix => hall ix (List.mem_cons_of_mem _ hix)
    exact ⟨b :: rest', by simp [mapIndices, hb, hrest]⟩

theorem reachable_tableInv {pkf : Nat} {missing : E} {t : Table V E}
    (h : Reachable pkf missing t) : TableInv pkf t := by
  induction h with
  | init t hstore hixs hprim =>
    refine ⟨hprim, ?_, ?_⟩
    · intro k r hk
      rw [hstore] at hk
      simp at hk
    · intro ix hix
      have h0 := hixs ix hix
      rw [hstore]
      cases ix with
      | unique fi err m =>
        simp only [initIndex] at h0
        subst h0
        simp only [indexInv]
        intro v k
        constructor
        · intro hm
          simp at hm
        · rintro ⟨rec, hrec, -⟩
          simp at hrec
      | group fi m =>
        simp only [initIndex] at h0
        subst h0
        constructor
        · intro v s hs
          simp at hs
        · intro v k
          constructor
          · rintro ⟨s, hs, -⟩
            simp at hs
          · rintro ⟨rec, hrec, -⟩
            simp at hrec
      | primary fi err => trivial
      | foreign fi err other => trivial
      | reverse fi err other => trivial
      | constraint c => trivial
  | @env t t' h hstore hix ih =>
    obtain ⟨hp, hpk, hind⟩ := ih
    refine ⟨hasPrimary_sameOwn hix hp, ?_, ?_⟩
    · intro k r hk
      rw [hstore] at hk
      exact hpk k r hk
    · intro b hb
      obtain ⟨a, ha, hr⟩ := forall2_mem_right hix b hb
      rw [hstore]
      exact indexInv_sameOwn hr (hind a ha)
  | @insert t t' r h hok ih =>
    obtain ⟨hp, hpk, hind⟩ := ih
    obtain ⟨hchecks, hstore, hmap⟩ := tableInsert_ok_inv hok
    obtain ⟨e, he⟩ := hp
    have hprimcheck := (firstErr_eq_none_iff _ _).mp hchecks _ he
    have hfresh : lookupA t.store (fieldv r pkf) = none := by
      by_cases hs : (lookupA t.store (fieldv r pkf)).isSome
      · simp [insertCheck1, hs] at hprimcheck
      · rwa [Option.not_isSome_iff_eq_none] at hs
    refine ⟨hasPrimary_mapIndices (f := insertIndex1 (fieldv r pkf) r) (fun fi err => rfl) hmap ⟨e, he⟩, ?_, ?_⟩
    · intro k rec hk
      rw [hstore, lookupA_insertA] at hk
      by_cases hkk : k = fieldv r pkf
      · rw [if_pos hkk] at hk
        cases hk
        rw [hkk]
      · rw [if_neg hkk] at hk
        exact hpk k rec hk
    · intro b hb
      obtain ⟨a, ha, hr⟩ := forall2_mem_right (mapIndices_forall2 hmap) b hb
      rw [hstore]
      exact indexInv_insert_step hfresh (hind a ha) hr
  | @update t t' new old h hok ih =>
    obtain ⟨hp, hpk, hind⟩ := ih
    obtain ⟨hold, hchecks, hstore, hmap⟩ := tableUpdate_ok_inv hok
    have hpkold : fieldv old pkf = fieldv new pkf := hpk _ _ hold
    rw [hpkold] at hmap
    refine ⟨hasPrimary_mapIndices (f := updateIndex1 (fieldv new pkf) old new)
      (fun fi err => rfl) hmap hp, ?_, ?_⟩
    · intro k rec hk
      rw [hstore, lookupA_insertA] at hk
      by_cases hkk : k = fieldv new pkf
      · rw [if_pos hkk] at hk
        cases hk
        rw [hkk]
      · rw [if_neg hkk] at hk
        exact hpk k rec hk
    · intro b hb
      obtain ⟨a, ha, hr⟩ := forall2_mem_right (mapIndices_forall2 hmap) b hb
      have hcheck1 := (firstErr_eq_none_iff _ _).mp hchecks a ha
      rw [hstore]
      exact indexInv_update_step hold hcheck1 (hind a ha) hr
  | @delete t t' idv row h hok ih =>
    obtain ⟨hp, hpk, hind⟩ := ih
    obtain ⟨hrow, hchk, hstore, hmap⟩ := tableDelete_ok_inv hok
    have hpkrow : fieldv row pkf = idv := hpk _ _ hrow
    rw [← hpkrow] at hstore hrow
    refine ⟨hasPrimary_mapIndices (f := deleteIndex1 (fieldv row pkf) row)
      (fun fi err => rfl) hmap hp, ?_, ?_⟩
    · intro k rec hk
      rw [hstore, lookupA_removeA] at hk
      by_cases hkk : k = fieldv row pkf
      · rw [if_pos hkk] at hk
        cases hk
      · rw [if_neg hkk] at hk
        exact hpk k rec hk
    · intro b hb
      obtain ⟨a, ha, hr⟩ := forall2_mem_right (mapIndices_forall2 hmap) b hb
      rw [hstore]
      exact indexInv_delete_step hrow (hind a ha) hr

end OpLemmas

section Claims

variable [DecidableEq V] [Inhabited V]

/-- Claim C1: for every table and every Insert, Update, or Delete call that
returns an error, the full observable state of the table (the primary store
map and every unique and grouping index container) is identical before and
after the call. -/
theorem insert_update_delete_error_leaves_table_unchanged
    (pkf : Nat) (missing : E) (t : Table V E) (r new : Rec V) (id : V) (e₁ e₂ e₃ : E) :
    ((tableInsert pkf t r).2 = .err e₁ → (tableInsert pkf t r).1 = t) ∧
    ((tableUpdate pkf missing t new).2 = .err e₂ → (tableUpdate pkf missing t new).1 = t) ∧
    ((tableDelete pkf missing t id).2 = .err e₃ → (tableDelete pkf missing t id).1 = t) :=
  ⟨fun h => (tableInsert_err_inv h).2,
   fun h => (tableUpdate_err_inv h).1,
   fun h => (tableDelete_err_inv h).1⟩

theorem insert_update_delete_error_leaves_table_unchanged_witness :
    (tableInsert 0 exT1 [0, 9, 23, 21]).1 = exT1 ∧
    (tableUpdate 0 99 exT1 [5, 7, 20, 21]).1 = exT1 ∧
    (tableDelete 0 99 exT1 3).1 = exT1 :=
  ⟨(insert_update_delete_error_leaves_table_unchanged 0 99 exT1 [0, 9, 23, 21]
      [5, 7, 20, 21] 3 100 99 99).1 rfl,
   (insert_update_delete_error_leaves_table_unchanged 0 99 exT1 [0, 9, 23, 21]
      [5, 7, 20, 21] 3 100 99 99).2.1 rfl,
   (insert_update_delete_error_leaves_table_unchanged 0 99 exT1 [0, 9, 23, 21]
      [5, 7, 20, 21] 3 100 99 99).2.2 rfl⟩

/-- Claim C7: for every primary key absent from the primary store, Update of
a record with that key and Delete of that key both fail with the table's
declared missing error and run no further checks (the result is
`(t, err missing)` whatever the declared indices hold); a key deleted once
successfully yields the missing error when deleted again. -/
theorem update_delete_missing_key
    (pkf : Nat) (missing : E) (t : Table V E) (new : Rec V) (id : V) :
    (lookupA t.store (fieldv new pkf) = none →
      tableUpdate pkf missing t new = (t, .err missing)) ∧
    (lookupA t.store id = none →
      tableDelete pkf missing t id = (t, .err missing)) ∧
    (∀ t' row, tableDelete pkf missing t id = (t', .ok row) →
      tableDelete pkf missing t' id = (t', .err missing)) := by
  refine ⟨fun h => tableUpdate_missing h, fun h => tableDelete_missing h, ?_⟩
  intro t' row h
  obtain ⟨-, -, hstore, -⟩ := tableDelete_ok_inv h
  apply tableDelete_missing
  rw [hstore]
  exact lookupA_removeA_self _ _

theorem update_delete_missing_key_witness :
    tableUpdate 0 99 exT1 [5, 7, 20, 21] = (exT1, .err 99) ∧
    tableDelete 0 99 exT1 3 = (exT1, .err 99) ∧
    tableDelete 0 99 exEmpty 0 = (exEmpty, .err 99) :=
  ⟨(update_delete_missing_key 0 99 exT1 [5, 7, 20, 21] 3).1 rfl,
   (update_delete_missing_key 0 99 exT1 [5, 7, 20, 21] 3).2.1 rfl,
   (update_delete_missing_key 0 99 exT1 [5, 7, 20, 21] 0).2.2 exEmpty
     [0, 7, 20, 21] rfl⟩

/-- Claim C3: a failing Insert returns exactly the error of the first index,
in declaration order, whose insert check fails, and a failing Update on a
present key returns exactly the error of the first index whose update check
fails; simultaneous violations are never aggregated (one error is carried),
and no state is mutated before the error is returned. -/
theorem first_failing_check_wins
    (pkf : Nat) (missing : E) (t : Table V E) (r new : Rec V) (e : E) :
    ((tableInsert pkf t r).2 = .err e ↔
      ∃ (i : Nat) (ix : Index V E), t.indices[i]? = some ix ∧
        insertCheck1 t.store r ix = some e ∧
        ∀ (j : Nat), j < i → ∀ ix', t.indices[j]? = some ix' →
          insertCheck1 t.store r ix' = none) ∧
    (∀ old, lookupA t.store (fieldv new pkf) = some old →
      ((tableUpdate pkf missing t new).2 = .err e ↔
        ∃ (i : Nat) (ix : Index V E), t.indices[i]? = some ix ∧
          updateCheck1 old new ix = some e ∧
          ∀ (j : Nat), j < i → ∀ ix', t.indices[j]? = some ix' →
            updateCheck1 old new ix' = none)) ∧
    ((tableInsert pkf t r).2 = .err e → (tableInsert pkf t r).1 = t) ∧
    ((tableUpdate pkf missing t new).2 = .err e →
      (tableUpdate pkf missing t new).1 = t) := by
  have hins : (tableInsert pkf t r).2 = .err e ↔
      insertChecks t.store r t.indices = some e := by
    constructor
    · intro h
      exact (tableInsert_err_inv h).1
    · intro h
      rw [tableInsert_check_err h]
  refine ⟨hins.trans (firstErr_eq_some_iff _ _ _), ?_,
    fun h => (tableInsert_err_inv h).2, fun h => (tableUpdate_err_inv h).1⟩
  intro old hold
  have hupd : (tableUpdate pkf missing t new).2 = .err e ↔
      updateChecks old new t.indices = some e := by
    constructor
    · intro h
      rcases (tableUpdate_err_inv h).2 with ⟨hnone, -⟩ | ⟨old', h1, h2⟩
      · rw [hold] at hnone
        cases hnone
      · rw [hold] at h1
        cases h1
        exact h2
    · intro h
      rw [tableUpdate_check_err hold h]
  exact hupd.trans (firstErr_eq_some_iff _ _ _)

theorem first_failing_check_wins_witness :
    (∃ (i : Nat) (ix : Index Nat Nat), exT2.indices[i]? = some ix ∧
      insertCheck1 exT2.store [5, 9, 20, 21] ix = some 101 ∧
      ∀ (j : Nat), j < i → ∀ ix', exT2.indices[j]? = some ix' →
        insertCheck1 exT2.store [5, 9, 20, 21] ix' = none) ∧
    (∃ (i : Nat) (ix : Index Nat Nat), exT2.indices[i]? = some ix ∧
      updateCheck1 [1, 8, 22, 21] [1, 8, 20, 21] ix = some 101 ∧
      ∀ (j : Nat), j < i → ∀ ix', exT2.indices[j]? = some ix' →
        updateCheck1 [1, 8, 22, 21] [1, 8, 20, 21] ix' = none) ∧
    (tableInsert 0 exT2 [5, 9, 20, 21]).1 = exT2 ∧
    (tableUpdate 0 99 exT2 [1, 8, 20, 21]).1 = exT2 :=
  ⟨(first_failing_check_wins 0 99 exT2 [5, 9, 20, 21] [1, 8, 20, 21] 101).1.mp rfl,
   ((first_failing_check_wins 0 99 exT2 [5, 9, 20, 21] [1, 8, 20, 21] 101).2.1
      [1, 8, 22, 21] rfl).mp rfl,
   (first_failing_check_wins 0 99 exT2 [5, 9, 20, 21] [1, 8, 20, 21] 101).2.2.1 rfl,
   (first_failing_check_wins 0 99 exT2 [5, 9, 20, 21] [1, 8, 20, 21] 101).2.2.2 rfl⟩

/-- Claim C4: for every record `r`, if Insert(r) succeeds then afterwards the
primary store maps `r`'s primary key to `r`, every declared unique index
maps `r`'s corresponding field value to `r`'s primary key, and every
declared grouping index's set for `r`'s corresponding field value contains
`r`'s primary key. -/
theorem insert_ok_roundtrip
    (pkf : Nat) (t t' : Table V E) (r : Rec V)
    (h : tableInsert pkf t r = (t', .ok ())) :
    lookupA t'.store (fieldv r pkf) = some r ∧
    (∀ (i fi : Nat) (err : E) (m : List (V × V)),
      t'.indices[i]? = some (.unique fi err m) →
      lookupA m (fieldv r fi) = some (fieldv r pkf)) ∧
    (∀ (i fi : Nat) (m : List (V × List V)),
      t'.indices[i]? = some (.group fi m) →
      ∃ s, lookupA m (fieldv r fi) = some s ∧ fieldv r pkf ∈ s) := by
  obtain ⟨-, hstore, hmap⟩ := tableInsert_ok_inv h
  have hrel := mapIndices_forall2 hmap
  refine ⟨by rw [hstore]; exact lookupA_insertA_self _ _ _, ?_, ?_⟩
  · intro i fi err m hi
    obtain ⟨a, -, hins⟩ := forall2_getElem_right hrel i _ hi
    obtain ⟨m₀, -, -, hm⟩ := insertIndex1_unique_inv hins
    rw [hm]
    exact lookupA_insertA_self _ _ _
  · intro i fi m hi
    obtain ⟨a, -, hins⟩ := forall2_getElem_right hrel i _ hi
    obtain ⟨m₀, -, -, hm⟩ := insertIndex1_group_inv hins
    rw [hm]
    exact ⟨_, lookupA_insertA_self _ _ _, by simp⟩

theorem insert_ok_roundtrip_witness :
    lookupA (tableInsert 0 exT1 [1, 8, 22, 21]).1.store 1 = some [1, 8, 22, 21] ∧
    (∀ (i fi : Nat) (err : Nat) (m : List (Nat × Nat)),
      (tableInsert 0 exT1 [1, 8, 22, 21]).1.indices[i]? = some (.unique fi err m) →
      lookupA m (fieldv [1, 8, 22, 21] fi) = some 1) ∧
    (∀ (i fi : Nat) (m : List (Nat × List Nat)),
      (tableInsert 0 exT1 [1, 8, 22, 21]).1.indices[i]? = some (.group fi m) →
      ∃ s, lookupA m (fieldv [1, 8, 22, 21] fi) = some s ∧ 1 ∈ s) :=
  insert_ok_roundtrip 0 exT1 (tableInsert 0 exT1 [1, 8, 22, 21]).1
    [1, 8, 22, 21] rfl

/-- Claim C5: updating a stored record without changing a unique-indexed
field never fails with that unique index's declared exists-error, even
though the unchanged value is present in that index (the unchanged field is
never rechecked).  `hdisj` identifies "that index's declared error": no
other declaration's update check can produce the same error value. -/
theorem update_unchanged_unique_field_never_self_collides
    (pkf : Nat) (missing : E) (t : Table V E) (new old : Rec V)
    (i fi : Nat) (err : E) (m : List (V × V))
    (hold : lookupA t.store (fieldv new pkf) = some old)
    (hix : t.indices[i]? = some (.unique fi err m))
    (hsame : fieldv old fi = fieldv new fi)
    (_hpresent : (lookupA m (fieldv new fi)).isSome = true)
    (hdisj : ∀ p ∈ t.indices.enum, p.1 ≠ i → updateCheck1 old new p.2 ≠ some err) :
    (tableUpdate pkf missing t new).2 ≠ .err err := by
  intro h
  rcases (tableUpdate_err_inv h).2 with ⟨hnone, -⟩ | ⟨old', h1, h2⟩
  · rw [hold] at hnone
    cases hnone
  · rw [hold] at h1
    cases h1
    obtain ⟨i', ix', hi', hf', -⟩ := (firstErr_eq_some_iff _ _ _).mp h2
    by_cases hii : i' = i
    · subst hii
      rw [hix] at hi'
      cases hi'
      simp [updateCheck1, hsame] at hf'
    · exact hdisj (i', ix') (List.mk_mem_enum_iff_getElem?.mpr hi') hii hf'

theorem update_unchanged_unique_field_never_self_collides_witness :
    (tableUpdate 0 99 exT2 [1, 9, 22, 21]).2 ≠ .err 101 :=
  update_unchanged_unique_field_never_self_collides 0 99 exT2 [1, 9, 22, 21]
    [1, 8, 22, 21] 1 2 101 [(20, 0), (22, 1)] rfl rfl rfl rfl (by decide)

/-- Claim C8 counterexample: at the state whose single key is u64::MAX, the
generated next_id (u64 arithmetic: `*key + 1`) wraps to 0, which is not one
greater than the maximum present primary key. -/
theorem next_id_overflow_counterexample :
    tableNextId (⟨[(2 ^ 64 - 1, [2 ^ 64 - 1])], []⟩ : Table Nat Nat) ≠
      (2 ^ 64 - 1) + 1 := by
  decide

/-- Claim C8 (amended): next_id() is a pure function of the current primary
store, returning the key type's zero (0) on an empty table and the u64
increment `(max + 1) % 2 ^ 64` of the maximum present key otherwise — which
is exactly one greater than the maximum whenever that does not overflow. -/
theorem next_id_succ_max_mod (t : Table Nat E) :
    (t.store = [] → tableNextId t = 0) ∧
    (∀ m, (t.store.map Prod.fst).max? = some m →
      tableNextId t = (m + 1) % 2 ^ 64 ∧
      (m + 1 < 2 ^ 64 → tableNextId t = m + 1)) := by
  constructor
  · intro h
    simp [tableNextId, h]
  · intro m hm
    refine ⟨by simp [tableNextId, hm], fun hlt => ?_⟩
    have hlt' : m + 1 < 18446744073709551616 := by simpa using hlt
    simp [tableNextId, hm, Nat.mod_eq_of_lt hlt']

theorem next_id_succ_max_mod_witness :
    tableNextId exEmpty = 0 ∧ tableNextId exT2 = 2 :=
  ⟨(next_id_succ_max_mod exEmpty).1 rfl,
   ((next_id_succ_max_mod exT2).2 1 rfl).2 (by decide)⟩

/-- Claim C9 counterexample: with keys {0, u64::MAX} present, next_id wraps
to 0, which is present in the primary store — the returned key is in use. -/
theorem next_id_overflow_key_in_use :
    lookupA (⟨[(0, [0]), (2 ^ 64 - 1, [2 ^ 64 - 1])], []⟩ : Table Nat Nat).store
      (tableNextId (⟨[(0, [0]), (2 ^ 64 - 1, [2 ^ 64 - 1])], []⟩ : Table Nat Nat)) =
      some [0] := by
  decide

/-- Claim C9 (amended): the key returned by next_id() is absent from the
primary store on the empty table and whenever incrementing the maximum
present key does not overflow u64; at the overflow state the wrapped key 0
can be in use (see the counterexample). -/
theorem next_id_unused_without_overflow (t : Table Nat E) :
    (t.store = [] → lookupA t.store (tableNextId t) = none) ∧
    (∀ m, (t.store.map Prod.fst).max? = some m → m + 1 < 2 ^ 64 →
      lookupA t.store (tableNextId t) = none) := by
  constructor
  · intro h
    rw [h]
    rfl
  · intro m hmax hlt
    have hm := (List.max?_eq_some_iff').mp hmax
    have hid : tableNextId t = m + 1 := by
      have hlt' : m + 1 < 18446744073709551616 := by simpa using hlt
      simp [tableNextId, hmax, Nat.mod_eq_of_lt hlt']
    rw [hid]
    apply lookupA_eq_none_of_keys
    intro p hp
    have hmem : p.1 ∈ t.store.map Prod.fst := List.mem_map_of_mem _ hp
    have hle := hm.2 _ hmem
    omega

theorem next_id_unused_without_overflow_witness :
    lookupA exT2.store (tableNextId exT2) = none :=
  (next_id_unused_without_overflow exT2).2 1 rfl (by decide)

/-- Claim C10 (constraint kind modelled from the spec, its implementation
being absent from `src/lib.rs`): for a table with a declared constraint
index, the insert check runs the caller-supplied predicate against the full
candidate record, and the update check runs it against the full changed
candidate record; when the predicate rejects, the operation fails with the
caller-supplied error and no state is mutated. -/
theorem constraint_predicate_guards
    (pkf : Nat) (missing : E) (t : Table V E) (r new : Rec V)
    (i : Nat) (check : Rec V → Option E) (e : E)
    (hix : t.indices[i]? = some (.constraint check)) :
    (check r = some e →
      (∀ p ∈ t.indices.enum, p.1 < i → insertCheck1 t.store r p.2 = none) →
      tableInsert pkf t r = (t, .err e)) ∧
    (∀ old, lookupA t.store (fieldv new pkf) = some old → old ≠ new →
      check new = some e →
      (∀ p ∈ t.indices.enum, p.1 < i → updateCheck1 old new p.2 = none) →
      tableUpdate pkf missing t new = (t, .err e)) := by
  constructor
  · intro hc hmin
    apply tableInsert_check_err
    exact firstErr_eq_some_of hix (by simpa [insertCheck1, constraintCheck] using hc)
      (fun j hj ix' hj' => hmin (j, ix') (List.mk_mem_enum_iff_getElem?.mpr hj') hj)
  · intro old hold hne hc hmin
    apply tableUpdate_check_err hold
    exact firstErr_eq_some_of hix
      (by simp [updateCheck1, constraintUpdateCheck, hne, hc])
      (fun j hj ix' hj' => hmin (j, ix') (List.mk_mem_enum_iff_getElem?.mpr hj') hj)

/-- Claim C2: in every state reachable from the empty database by successful
Insert/Update/Delete calls (other tables' own operations modelled as
environment steps on the foreign/reverse views), every declared grouping
index maps each field value `v` to exactly the set of primary keys of
stored records whose indexed field equals `v`, and the index contains no
entry whose set is empty. -/
theorem reachable_group_index_exact
    (pkf : Nat) (missing : E) (t : Table V E) (h : Reachable pkf missing t) :
    ∀ (i fi : Nat) (m : List (V × List V)), t.indices[i]? = some (.group fi m) →
      (∀ v s, lookupA m v = some s → s ≠ []) ∧
      (∀ v k, (∃ s, lookupA m v = some s ∧ k ∈ s) ↔
        ∃ r, lookupA t.store k = some r ∧ fieldv r fi = v) := by
  intro i fi m hi
  have hmem : (Index.group fi m : Index V E) ∈ t.indices := List.getElem?_mem hi
  obtain ⟨-, -, hind⟩ := reachable_tableInv h
  obtain ⟨hne, hiff⟩ := hind _ hmem
  exact ⟨fun v s hs => (hne v s hs).1, hiff⟩

theorem reachable_group_index_exact_witness :
    (∀ v s, lookupA [(21, [0])] v = some s → s ≠ []) ∧
    (∀ v k, (∃ s, lookupA [(21, [0])] v = some s ∧ k ∈ s) ↔
      ∃ r, lookupA exT1.store k = some r ∧ fieldv r 3 = v) :=
  reachable_group_index_exact 0 99 exT1
    (Reachable.insert (r := [0, 7, 20, 21])
      (Reachable.init exEmpty rfl
        (by
          intro ix hix
          simp only [exEmpty, exIxs, List.mem_cons, List.not_mem_nil, or_false] at hix
          rcases hix with rfl | rfl | rfl | rfl <;> trivial)
        ⟨100, by simp [exEmpty, exIxs]⟩)
      rfl)
    2 3 [(21, [0])] rfl

/-- Claim C6: for a table with a declared reverse-dependency index, Delete on
a present record fails with that index's declared "referenced rows exist"
error whenever the referencing table's grouping index holds a non-empty key
set for the row's primary key (earlier delete checks passing), and the same
Delete succeeds — returning the row — once all referencing rows have been
deleted (every delete check passes, i.e. no reverse view holds an entry for
the key), in any consistent (reachable) table state. -/
theorem reverse_dependency_guard
    (pkf : Nat) (missing : E) (t : Table V E) (idv : V) (row : Rec V)
    (hrow : lookupA t.store idv = some row) :
    (∀ (i fi : Nat) (err : E) (other : List (V × List V)) (s : List V),
      t.indices[i]? = some (.reverse fi err other) →
      lookupA other (fieldv row pkf) = some s → s ≠ [] →
      (∀ p ∈ t.indices.enum, p.1 < i →
        deleteCheck1 (fieldv row pkf) p.2 = (.ok () : Res E Unit)) →
      tableDelete pkf missing t idv = (t, .err err)) ∧
    (TableInv pkf t →
      (∀ ix ∈ t.indices, deleteCheck1 (fieldv row pkf) ix = (.ok () : Res E Unit)) →
      ∃ t', tableDelete pkf missing t idv = (t', .ok row)) := by
  constructor
  · intro i fi err other s hi hs hsne hmin
    apply tableDelete_check_err hrow
    apply deleteChecks_eq_err_of hi
    · have hsemp : s.isEmpty = false := by
        cases s
        · exact absurd rfl hsne
        · rfl
      simp only [deleteCheck1, hs, hsemp, Bool.false_eq_true, if_false]
    · exact fun j hj ix' hj' => hmin (j, ix') (List.mk_mem_enum_iff_getElem?.mpr hj') hj
  · intro hinv hrev
    obtain ⟨-, hpk, hind⟩ := hinv
    have hpkrow : fieldv row pkf = idv := hpk _ _ hrow
    have hchecks : deleteChecks (fieldv row pkf) t.indices = (.ok () : Res E Unit) :=
      (deleteChecks_eq_ok_iff _ _).mpr hrev
    have hindices : ∃ ixs',
        mapIndices (deleteIndex1 (fieldv row pkf) row) t.indices = some ixs' := by
      apply mapIndices_eq_some_of
      intro ix hix
      cases ix with
      | primary fi err => rfl
      | foreign fi err other => rfl
      | constraint check => rfl
      | reverse fi err other =>
        have hc := hrev _ hix
        rcases hl : lookupA other (fieldv row pkf) with _ | s
        · simp [deleteIndex1, hl]
        · exfalso
          simp only [deleteCheck1, hl] at hc
          by_cases hemp : (s.isEmpty : Prop) <;> simp [hemp] at hc
      | unique fi err m =>
        have hiv := hind _ hix
        simp only [indexInv] at hiv
        have hm : lookupA m (fieldv row fi) = some (fieldv row pkf) :=
          (hiv _ _).mpr ⟨row, by rw [hpkrow]; exact hrow, rfl⟩
        simp [deleteIndex1, hm]
      | group fi m =>
        obtain ⟨hne, hiff⟩ := hind _ hix
        obtain ⟨s, hs, hks⟩ := (hiff (fieldv row fi) (fieldv row pkf)).mpr
          ⟨row, by rw [hpkrow]; exact hrow, rfl⟩
        by_cases hemp : ((s.erase (fieldv row pkf)).isEmpty : Prop) <;>
          simp [deleteIndex1, hs, hks, hemp]
    obtain ⟨ixs', hmap⟩ := hindices
    exact ⟨⟨removeA t.store idv, ixs'⟩, by simp [tableDelete, hrow, hchecks, hmap]⟩

theorem reverse_dependency_guard_witness :
    tableDelete 0 99 exParent 1 = (exParent, .err 201) ∧
    ∃ t', tableDelete 0 99 exParentFree 1 = (t', .ok [1, 5]) := by
  constructor
  · exact (reverse_dependency_guard 0 99 exParent 1 [1, 5] rfl).1 1 0 201
      [(1, [10])] [10] rfl rfl (by decide) (by decide)
  · apply (reverse_dependency_guard 0 99 exParentFree 1 [1, 5] rfl).2
    · refine ⟨⟨200, by simp [exParentFree]⟩, ?_, ?_⟩
      · intro k r hk
        simp only [exParentFree, lookupA_cons, lookupA_nil] at hk
        by_cases hk1 : k = 1
        · rw [if_pos hk1] at hk
          cases hk
          rw [hk1]
          rfl
        · rw [if_neg hk1] at hk
          cases hk
      · intro ix hix
        simp only [exParentFree, List.mem_cons, List.not_mem_nil, or_false] at hix
        rcases hix with rfl | rfl <;> trivial
    · decide

theorem constraint_predicate_guards_witness :
    tableInsert 0 exConstraintT [1, 0] = (exConstraintT, .err 300) ∧
    tableUpdate 0 99 exConstraintT [0, 0] = (exConstraintT, .err 300) :=
  ⟨(constraint_predicate_guards 0 99 exConstraintT [1, 0] [0, 0] 1
      (fun r => if fieldv r 1 = 0 then some 300 else none) 300 rfl).1 rfl
      (by decide),
   (constraint_predicate_guards 0 99 exConstraintT [1, 0] [0, 0] 1
      (fun r => if fieldv r 1 = 0 then some 300 else none) 300 rfl).2 [0, 4]
      rfl (by decide) rfl (by decide)⟩

end Claims

end MacroDB
